import Mathlib

/-!
Verification of the `cli_validator` command-metadata validation engine.

The development shallowly embeds the three source files:

* `src/cli_validator/exceptions.py` — the exception hierarchy (`PyExcKind`, `pyBase`);
* `src/cli_validator/cmd_meta/loader/__init__.py` — command-tree construction
  (`attach_sub_group_to_node`, `build_command_tree`);
* `src/cli_validator/cmd_meta/validator.py` — `CommandMetaValidator`
  (`load_command_meta`, `validate_command` and the required-argument policy).

Python dicts are embedded as insertion-ordered association lists over `String`
keys (`dictGet` / `dictSet` mirror `d[k]` reads and writes: a write to a present
key keeps its position, a write to an absent key appends).  Python exceptions
are embedded as `Except PyErr` results, with one `PyErr` constructor per
exception the embedded code can raise.  JSON values that the embedded code only
stores or tests for presence are embedded as `JVal`.
-/

/-! ## Python dictionaries as association lists -/

/-- Reads a key from an insertion-ordered dictionary (first matching entry). -/
def dictGet {α : Type} : List (String × α) → String → Option α
  | [], _ => none
  | (k2, v) :: d, k => if k2 = k then some v else dictGet d k

/-- Python `k in d`. -/
def dictMem {α : Type} (d : List (String × α)) (k : String) : Bool :=
  (dictGet d k).isSome

/-- Overwrites the first entry holding key `k`, keeping its position. -/
def dictSetIn {α : Type} : List (String × α) → String → α → List (String × α)
  | [], _, _ => []
  | (k2, v2) :: d, k, v => if k2 = k then (k, v) :: d else (k2, v2) :: dictSetIn d k v

/-- Python `d[k] = v`: overwrite in place when the key is present, append when
it is absent. -/
def dictSet {α : Type} (d : List (String × α)) (k : String) (v : α) : List (String × α) :=
  if dictMem d k then dictSetIn d k v else d ++ [(k, v)]

/-! ## Tokenisation of space-joined path strings -/

/-- Splits a character list on spaces, dropping empty chunks; `acc` holds the
characters of the current chunk in reverse.  Auxiliary for `splitTokens`. -/
def splitChars : List Char → List Char → List String
  | [], acc => if acc.isEmpty then [] else [String.mk acc.reverse]
  | c :: rest, acc =>
    if c = ' ' then
      (if acc.isEmpty then [] else [String.mk acc.reverse]) ++ splitChars rest []
    else
      splitChars rest (c :: acc)

/-- Python `s.split()` for the space-joined command-path strings of the
metadata contract: splits on runs of spaces and drops empty tokens. -/
def splitTokens (s : String) : List String :=
  splitChars s.data []

/-- Python `s.split()[-1]`: the last token, or `none` when there is no token
(in which case the source raises `IndexError`). -/
def lastTok (s : String) : Option String :=
  (splitTokens s).getLast?

/-! ## The exception hierarchy (src/cli_validator/exceptions.py) -/

/-- The classes of the exceptions the embedded code can raise: the eight
classes defined in `exceptions.py`, the Python root class `Exception`, and the
Python builtins `KeyError`, `TypeError` and `IndexError` that plain dict/list
operations raise.  (The builtin classes are collapsed onto their `Exception`
ancestor; their intermediate builtin bases are irrelevant here.) -/
inductive PyExcKind where
  | exception
  | keyError
  | typeError
  | indexError
  | unknownTypeException
  | validateFailureException
  | parserFailureException
  | parserHelpException
  | emptyCommandException
  | nonAzCommandException
  | commandTreeCorruptedException
  | unknownCommandException
deriving DecidableEq

/-- The direct base class of each exception class, as declared in
`exceptions.py` (`class ParserFailureException(ValidateFailureException)` and
so on); builtins point at `Exception`. -/
def pyBase : PyExcKind → Option PyExcKind
  | .exception => none
  | .keyError => some .exception
  | .typeError => some .exception
  | .indexError => some .exception
  | .unknownTypeException => some .exception
  | .validateFailureException => some .exception
  | .parserFailureException => some .validateFailureException
  | .parserHelpException => some .validateFailureException
  | .emptyCommandException => some .validateFailureException
  | .nonAzCommandException => some .validateFailureException
  | .commandTreeCorruptedException => some .validateFailureException
  | .unknownCommandException => some .validateFailureException

/-- Climbs at most `fuel` steps of base classes looking for `d`. -/
def kindLeAux : Nat → PyExcKind → PyExcKind → Bool
  | 0, _, _ => false
  | fuel + 1, c, d =>
    c = d ||
      match pyBase c with
      | none => false
      | some b => kindLeAux fuel b d

/-- Python `issubclass c d` over the modelled hierarchy (the hierarchy has
depth at most three, so a fuel of twelve is ample). -/
def isSubkindOf (c d : PyExcKind) : Bool :=
  kindLeAux 12 c d

/-- A raised Python exception: one constructor per exception value the embedded
code can produce, carrying the message parts the source builds. -/
inductive PyErr where
  | keyError (key : String)
  | typeError
  | indexError
  | unknownType (msg : String)
  | validateFailure (msg : String)
  | parserFailure (msg : String)
  | parserHelp
  | emptyCommand
  | nonAzCommand
  | commandTreeCorrupted (msg : String)
  | unknownCommand (msg : String)
deriving DecidableEq

/-- The dynamic class of a raised exception value. -/
def PyErr.kind : PyErr → PyExcKind
  | .keyError _ => .keyError
  | .typeError => .typeError
  | .indexError => .indexError
  | .unknownType _ => .unknownTypeException
  | .validateFailure _ => .validateFailureException
  | .parserFailure _ => .parserFailureException
  | .parserHelp => .parserHelpException
  | .emptyCommand => .emptyCommandException
  | .nonAzCommand => .nonAzCommandException
  | .commandTreeCorrupted _ => .commandTreeCorruptedException
  | .unknownCommand _ => .unknownCommandException

/-- Holds exactly when a computation raised a `KeyError`. -/
def isKeyErrorResult {α : Type} : Except PyErr α → Bool
  | .error (.keyError _) => true
  | _ => false

/-! ## The metadata data model (the JSON contract of section 3 of the spec) -/

/-- A JSON value stored in the metadata, for fields whose value the embedded
code stores or tests for presence but never computes with. -/
inductive JVal where
  | null
  | bool (b : Bool)
  | str (s : String)
  | num (n : Int)
deriving DecidableEq

/-- One entry of the `parameters` list of a command spec.  `name` and `options`
are the fields the validator reads unconditionally (`param['name']`,
`param['options']`); `required` and `id_part` are `some v` when the JSON object
carries the key (with value `v`) and `none` when it lacks the key, because the
validator tests these two with `'required' in param` / `'id_part' in param`. -/
structure ParamMeta where
  name : String
  options : List String
  required : Option JVal
  id_part : Option JVal
deriving DecidableEq

/-- The metadata of a single command: `meta['parameters']`. -/
structure CmdMeta where
  parameters : List ParamMeta
deriving DecidableEq

/-- A command group of the metadata document: its `commands` key (a dict from
full space-joined command path to the command spec) and its `sub_groups` key (a
dict from full space-joined group path to the nested group). -/
inductive GroupMeta where
  | mk (commands : List (String × CmdMeta)) (sub_groups : List (String × GroupMeta))

/-- The `commands` dict of a group. -/
def GroupMeta.commands : GroupMeta → List (String × CmdMeta)
  | .mk c _ => c

/-- The `sub_groups` dict of a group. -/
def GroupMeta.sub_groups : GroupMeta → List (String × GroupMeta)
  | .mk _ s => s

/-- One metadata document `az_<module>_meta.json`: its `module_name` key, and
its top-level `commands` / `sub_groups` keys, which `build_command_tree` hands
to `_attach_sub_group_to_node` as the root group. -/
structure ModuleMeta where
  module_name : String
  body : GroupMeta

/-- A value of the command-tree dict built by `build_command_tree`: either an
owning module name (a string leaf) or a nested dict of children. -/
inductive TreeVal where
  | leaf (module : String)
  | node (children : List (String × TreeVal))

/-! ## build_command_tree (src/cli_validator/cmd_meta/loader/__init__.py) -/

/-- The loop `for name, command in sub_group["commands"].items()`:
`tree_node[name.split()[-1]] = module` for each command entry. -/
def attachCommandsLoop : List (String × CmdMeta) → List (String × TreeVal) → String →
    Except PyErr (List (String × TreeVal))
  | [], tree_node, _ => .ok tree_node
  | (name, _) :: rest, tree_node, module =>
    match lastTok name with
    | none => .error .indexError
    | some t => attachCommandsLoop rest (dictSet tree_node t (.leaf module)) module

mutual
/-- The loop `for name, sub_group in sub_group["sub_groups"].items()`: take the
last token of `name` (IndexError when there is none), fetch or create
`tree_node[name]`, recurse into it, and store the result back (in Python the
recursion mutates the shared child in place; here the updated child is written
back, which is the same dict afterwards). -/
def attachSubGroupsLoop : List (String × GroupMeta) → List (String × TreeVal) → String →
    Except PyErr (List (String × TreeVal))
  | [], tree_node, _ => .ok tree_node
  | (name, sub_group) :: rest, tree_node, module =>
    match lastTok name with
    | none => .error .indexError
    | some t =>
      match attachIntoVal sub_group
          (match dictGet tree_node t with
           | some v => v
           | none => .node []) module with
      | .error e => .error e
      | .ok v1 => attachSubGroupsLoop rest (dictSet tree_node t v1) module

/-- Recursion of `_attach_sub_group_to_node` into one child value.  When the
child is a dict, run the body of `_attach_sub_group_to_node` against it: first
the loop over `sub_group["commands"]`, then the loop over
`sub_group["sub_groups"]`.  When the child is a string leaf (a module name
installed earlier for a command at this path), Python would run the two loops
against a string: an empty group leaves the string untouched, while any command
or sub-group entry raises (`IndexError` from `split()[-1]` on a token-less
name, otherwise `TypeError` from indexing the string). -/
def attachIntoVal : GroupMeta → TreeVal → String → Except PyErr TreeVal
  | .mk commands sub_groups, .node children, module =>
    match attachCommandsLoop commands children module with
    | .error e => .error e
    | .ok n1 =>
      match attachSubGroupsLoop sub_groups n1 module with
      | .error e => .error e
      | .ok n2 => .ok (.node n2)
  | .mk commands sub_groups, .leaf m, _ =>
    match commands, sub_groups with
    | [], [] => .ok (.leaf m)
    | (name, _) :: _, _ =>
      match lastTok name with
      | none => .error .indexError
      | some _ => .error .typeError
    | [], (name, _) :: _ =>
      match lastTok name with
      | none => .error .indexError
      | some _ => .error .typeError
end

/-- The body of `_attach_sub_group_to_node(sub_group, tree_node, module)`:
first the loop over `sub_group["commands"]`, then the loop over
`sub_group["sub_groups"]`, threading the mutated `tree_node`. -/
def attach_sub_group_to_node : GroupMeta → List (String × TreeVal) → String →
    Except PyErr (List (String × TreeVal))
  | .mk commands sub_groups, tree_node, module =>
    match attachCommandsLoop commands tree_node module with
    | .error e => .error e
    | .ok n1 => attachSubGroupsLoop sub_groups n1 module

/-- The loop of `build_command_tree` over `metas.values()`, threading the
growing tree. -/
def buildFrom : List (String × ModuleMeta) → List (String × TreeVal) →
    Except PyErr (List (String × TreeVal))
  | [], tree => .ok tree
  | (_, meta) :: rest, tree =>
    match attach_sub_group_to_node meta.body tree meta.module_name with
    | .error e => .error e
    | .ok tree2 => buildFrom rest tree2

/-- `build_command_tree(metas)`: start from the empty dict and attach every
metadata document in iteration order, under its `module_name`. -/
def build_command_tree (metas : List (String × ModuleMeta)) :
    Except PyErr (List (String × TreeVal)) :=
  buildFrom metas []

/-! ## The validator (src/cli_validator/cmd_meta/validator.py) -/

/-- The argparse namespace produced by `CLIParser.parse_args`: the reserved
`ids` slot (populated only when the global `--ids` flag was supplied, tested by
the source with `namespace.ids is not None`), and the remaining attributes,
`none` meaning the Python attribute holds `None` (the parameter was not
supplied). -/
structure Namespace where
  ids : Option JVal
  attrs : String → Option JVal

/-- The `ParsedCommand` produced by `parse_command`: the resolved command
signature tokens, the owning module, and the remaining raw parameter tokens. -/
structure ParsedCommand where
  signature : List String
  module : String
  parameters : List String

/-- Modelled from the spec: the behavior of the `CLIParser` component
(cmd_meta/parser.py is not under src/).  Section 4.5: a parser is built from
the shared global argument spec plus one command metadata, and parsing raw
parameter tokens yields a `Namespace` (every parameter not supplied resolving
to an absent value) or fails with a parser failure or the help condition.  The
component is embedded by this parsing behavior; the parser attribute created
once in the constructor, together with the builder method below, is the
function closing over the command metadata. -/
def GlobalParserBehavior : Type :=
  CmdMeta → List String → Except PyErr Namespace

/-- Modelled from the spec: the behavior of `parse_command` (cmd_tree.py is not
under src/).  Sections 4.2 and 4.3: tokenize the raw command string (optionally
stripping comments) and resolve it against the command tree into a
`ParsedCommand`, or fail. -/
def ParseCommandBehavior : Type :=
  List (String × TreeVal) → String → Bool → Except PyErr ParsedCommand

/-- The state a `CommandMetaValidator` instance holds after `__init__`:
`self.metas`, `self.command_tree` and the global parser attribute. -/
structure CommandMetaValidator where
  metas : List (String × ModuleMeta)
  command_tree : List (String × TreeVal)
  globalParser : GlobalParserBehavior

/-- The keys `' '.join(signature[:idx + 1])` for `idx in range(len(signature) - 1)`,
the successive sub-group keys `load_command_meta` descends through. -/
def subGroupKeys (signature : List String) : List String :=
  (List.range (signature.length - 1)).map
    (fun idx => String.intercalate " " (signature.take (idx + 1)))

/-- The loop of `load_command_meta`:
`meta = meta['sub_groups'][' '.join(signature[:idx + 1])]` for each key, a
missing key raising `KeyError`. -/
def descendSubGroups : GroupMeta → List String → Except PyErr GroupMeta
  | g, [] => .ok g
  | g, k :: rest =>
    match dictGet g.sub_groups k with
    | none => .error (.keyError k)
    | some g2 => descendSubGroups g2 rest

/-- `CommandMetaValidator.load_command_meta(signature, module)`: index
`self.metas` by the file name `az_<module>_meta.json`, walk the sub-group keys,
and read the final command entry; each dict read raises `KeyError` when the key
is absent. -/
def CommandMetaValidator.load_command_meta (v : CommandMetaValidator)
    (signature : List String) (module : String) : Except PyErr CmdMeta :=
  match dictGet v.metas ("az_" ++ module ++ "_meta.json") with
  | none => .error (.keyError ("az_" ++ module ++ "_meta.json"))
  | some module_meta =>
    match descendSubGroups module_meta.body (subGroupKeys signature) with
    | .error e => .error e
    | .ok g =>
      match dictGet g.commands (String.intercalate " " signature) with
      | none => .error (.keyError (String.intercalate " " signature))
      | some c => .ok c

/-- The builder method of `CommandMetaValidator`: a fresh `CLIParser` with the
global parser as parent and `meta` loaded, embedded by its parsing behavior. -/
def CommandMetaValidator.buildParser (v : CommandMetaValidator) (meta : CmdMeta) :
    List String → Except PyErr Namespace :=
  v.globalParser meta

/-- The loop over `meta['parameters']` when `namespace.ids is not None`:
skip a parameter carrying the `id_part` key; otherwise record
`'/'.join(param['options'])` when the parameter carries the `required` key and
its namespace attribute is `None`. -/
def missingWithIds (ns : Namespace) : List ParamMeta → List String
  | [] => []
  | param :: rest =>
    if param.id_part.isSome then
      missingWithIds ns rest
    else if param.required.isSome ∧ (ns.attrs param.name).isNone then
      String.intercalate "/" param.options :: missingWithIds ns rest
    else
      missingWithIds ns rest

/-- The loop over `meta['parameters']` when `namespace.ids is None`: record
`'/'.join(param['options'])` when the parameter carries the `required` key and
its namespace attribute is `None`; `id_part` plays no role. -/
def missingNoIds (ns : Namespace) : List ParamMeta → List String
  | [] => []
  | param :: rest =>
    if param.required.isSome ∧ (ns.attrs param.name).isNone then
      String.intercalate "/" param.options :: missingNoIds ns rest
    else
      missingNoIds ns rest

/-- The `missing_args` list `validate_command` accumulates from the parsed
namespace and `meta['parameters']`, branching on `namespace.ids is not None`. -/
def missingArgs (meta : CmdMeta) (ns : Namespace) : List String :=
  if ns.ids.isSome then
    missingWithIds ns meta.parameters
  else
    missingNoIds ns meta.parameters

/-- The tail of `validate_command`: raise `ValidateFailureException` with the
message `f"the following arguments are required: {', '.join(missing_args)} "`
when `missing_args` is non-empty; otherwise the method body ends without a
`return` statement, so the Python call returns `None` (embedded as `.ok none`,
never `.ok (some namespace)`). -/
def requiredPolicyCheck (meta : CmdMeta) (ns : Namespace) :
    Except PyErr (Option Namespace) :=
  let missing_args := missingArgs meta ns
  if missing_args.length > 0 then
    .error (.validateFailure
      ("the following arguments are required: " ++
        String.intercalate ", " missing_args ++ " "))
  else
    .ok none

/-- `CommandMetaValidator.validate_command(command, comments=True)`:
parse the command against `self.command_tree`, load the command metadata,
build the parser and parse the parameter tokens, then apply the
required-argument policy.  The first component is the Python return value or
the raised exception; the second component is the validator state after the
call (the method body never assigns to `self`, so the state is returned
unchanged on every path). -/
def CommandMetaValidator.validate_command (parse_command : ParseCommandBehavior)
    (v : CommandMetaValidator) (command : String) (comments : Bool := true) :
    Except PyErr (Option Namespace) × CommandMetaValidator :=
  (match parse_command v.command_tree command comments with
   | .error e => .error e
   | .ok cmd =>
     match v.load_command_meta cmd.signature cmd.module with
     | .error e => .error e
     | .ok meta =>
       match v.buildParser meta cmd.parameters with
       | .error e => .error e
       | .ok ns => requiredPolicyCheck meta ns,
   v)

/-! ## Spec-side notions used to state the claims -/

/-- Follows a non-empty token path through a command-tree dict: the value found
at the end of the path, or `none` when a token is missing or an intermediate
value is a leaf. -/
def followPath : List (String × TreeVal) → List String → Option TreeVal
  | _, [] => none
  | nd, t :: ts =>
    match dictGet nd t with
    | none => none
    | some v =>
      match ts with
      | [] => some v
      | _ :: _ =>
        match v with
        | .leaf _ => none
        | .node children => followPath children ts

/-- A leaf (an owning module) sits at path `q` of the tree dict `nd`. -/
def isLeafAt (nd : List (String × TreeVal)) (q : List String) : Prop :=
  ∃ m, followPath nd q = some (.leaf m)

mutual
/-- All command names (dict keys) declared by a group, recursively through its
sub-groups, in iteration order. -/
def declaredCmdNames : GroupMeta → List String
  | .mk commands sub_groups => commands.map Prod.fst ++ declaredCmdNamesList sub_groups

/-- List version of `declaredCmdNames` over a `sub_groups` dict. -/
def declaredCmdNamesList : List (String × GroupMeta) → List String
  | [] => []
  | (_, sg) :: rest => declaredCmdNames sg ++ declaredCmdNamesList rest
end

mutual
/-- All sub-group names (dict keys) declared by a group, recursively, in
iteration order. -/
def declaredSubGroupNames : GroupMeta → List String
  | .mk _ sub_groups => declaredSubGroupNamesList sub_groups

/-- List version of `declaredSubGroupNames` over a `sub_groups` dict. -/
def declaredSubGroupNamesList : List (String × GroupMeta) → List String
  | [] => []
  | (name, sg) :: rest => name :: (declaredSubGroupNames sg ++ declaredSubGroupNamesList rest)
end

mutual
/-- The tree paths (relative to the node the group is attached to) at which the
attach loops install command leaves: the last token of each command name, below
the last tokens of the enclosing sub-group names. -/
def relCmdPaths : GroupMeta → List (List String)
  | .mk commands sub_groups =>
    commands.filterMap (fun e => (lastTok e.1).map (fun t => [t])) ++
      relCmdPathsList sub_groups

/-- List version of `relCmdPaths` over a `sub_groups` dict. -/
def relCmdPathsList : List (String × GroupMeta) → List (List String)
  | [] => []
  | (name, sg) :: rest =>
    (match lastTok name with
     | some t => (relCmdPaths sg).map (t :: ·)
     | none => []) ++ relCmdPathsList rest
end

mutual
/-- The tree paths (relative to the node the group is attached to) that the
attach loops descend through for sub-groups. -/
def relNodePaths : GroupMeta → List (List String)
  | .mk _ sub_groups => relNodePathsList sub_groups

/-- List version of `relNodePaths` over a `sub_groups` dict. -/
def relNodePathsList : List (String × GroupMeta) → List (List String)
  | [] => []
  | (name, sg) :: rest =>
    (match lastTok name with
     | some t => [t] :: (relNodePaths sg).map (t :: ·)
     | none => []) ++ relNodePathsList rest
end

/-- Every command name of the dict tokenises to the enclosing path `p` plus one
final token (the invariant of section 3 of the spec for command keys). -/
def cmdNamesOkB (p : List String) (commands : List (String × CmdMeta)) : Bool :=
  commands.all (fun e => !(splitTokens e.1).isEmpty && ((splitTokens e.1).dropLast == p))

mutual
/-- The data-model invariant of section 3 of the spec, relative to the path
`p` of the group: every command path string and every sub-group path string
equals the space-joined token sequence from the module root to it, that is, it
tokenises to `p` plus one final token, recursively. -/
def consistentAtB : List String → GroupMeta → Bool
  | p, .mk commands sub_groups =>
    cmdNamesOkB p commands && consistentSubsB p sub_groups

/-- List version of `consistentAtB` over a `sub_groups` dict. -/
def consistentSubsB : List String → List (String × GroupMeta) → Bool
  | _, [] => true
  | p, (name, sg) :: rest =>
    (!(splitTokens name).isEmpty && ((splitTokens name).dropLast == p) &&
        consistentAtB (splitTokens name) sg) &&
      consistentSubsB p rest
end

mutual
/-- Every command and sub-group name of the group has a last token, so the
attach loops never hit `IndexError`. -/
def wellNamedB : GroupMeta → Bool
  | .mk commands sub_groups =>
    commands.all (fun e => (lastTok e.1).isSome) && wellNamedListB sub_groups

/-- List version of `wellNamedB` over a `sub_groups` dict. -/
def wellNamedListB : List (String × GroupMeta) → Bool
  | [] => true
  | (name, sg) :: rest =>
    (lastTok name).isSome && wellNamedB sg && wellNamedListB rest
end

/-- The module declares a command whose name tokenises to the path `c`. -/
def declaresPathB (m : ModuleMeta) (c : List String) : Bool :=
  (declaredCmdNames m.body).any (fun n => splitTokens n == c)

/-- The `module_name` of the last metadata document (in iteration order)
declaring a command at path `c`: entries later in the list take precedence. -/
def lastOwner : List (String × ModuleMeta) → List String → Option String
  | [], _ => none
  | e :: rest, c =>
    match lastOwner rest c with
    | some m => some m
    | none => if declaresPathB e.2 c then some e.2.module_name else none

/-- All command paths declared anywhere in the metadata set. -/
def allCmdPaths (metas : List (String × ModuleMeta)) : List (List String) :=
  (metas.map (fun e => (declaredCmdNames e.2.body).map splitTokens)).flatten

/-- All sub-group paths declared anywhere in the metadata set. -/
def allSubGroupPaths (metas : List (String × ModuleMeta)) : List (List String) :=
  (metas.map (fun e => (declaredSubGroupNames e.2.body).map splitTokens)).flatten

/-- The pure walk underlying `descendSubGroups`: follow sub-group keys through
the metadata document, `none` when a key is missing. -/
def groupWalk : GroupMeta → List String → Option GroupMeta
  | g, [] => some g
  | g, k :: rest =>
    match dictGet g.sub_groups k with
    | none => none
    | some g2 => groupWalk g2 rest

/-! ## The required-argument policy (claims C2, C3, C4, C9) -/

/-- With `--ids` supplied, the recorded list is exactly the option-joins of the
parameters that carry `required`, lack `id_part`, and are absent, in order. -/
theorem missingWithIds_eq_filter (ns : Namespace) (params : List ParamMeta) :
    missingWithIds ns params =
      (params.filter
        (fun p => p.required.isSome && p.id_part.isNone && (ns.attrs p.name).isNone)).map
        (fun p => String.intercalate "/" p.options) := by
  induction params with
  | nil => rfl
  | cons p rest ih =>
    cases hip : p.id_part <;> cases hreq : p.required <;> cases hat : ns.attrs p.name <;>
      simp [missingWithIds, List.filter_cons, hip, hreq, hat, ih]

/-- Without `--ids`, the recorded list is exactly the option-joins of the
parameters that carry `required` and are absent, in order. -/
theorem missingNoIds_eq_filter (ns : Namespace) (params : List ParamMeta) :
    missingNoIds ns params =
      (params.filter (fun p => p.required.isSome && (ns.attrs p.name).isNone)).map
        (fun p => String.intercalate "/" p.options) := by
  induction params with
  | nil => rfl
  | cons p rest ih =>
    cases hreq : p.required <;> cases hat : ns.attrs p.name <;>
      simp [missingNoIds, List.filter_cons, hreq, hat, ih]

/-- C2: with the ids slot present, the required-argument policy records as
missing exactly the parameters that are marked `required`, are not marked
`id_part`, and are absent in the namespace — parameters marked `id_part` are
exempt even when required and absent — in the order of the parameter list. -/
theorem policy_with_ids_missing_exactly (meta : CmdMeta) (ns : Namespace)
    (h : ns.ids.isSome = true) :
    missingArgs meta ns =
      (meta.parameters.filter
        (fun p => p.required.isSome && p.id_part.isNone && (ns.attrs p.name).isNone)).map
        (fun p => String.intercalate "/" p.options) := by
  rw [missingArgs, if_pos h, missingWithIds_eq_filter]

/-- Witness for C2 at a concrete command spec and namespace. -/
theorem policy_with_ids_missing_exactly_witness :
    missingArgs
        ⟨[⟨"rg", ["--rg", "-g"], some (.bool true), some .null⟩,
          ⟨"nm", ["--name", "-n"], some (.bool true), none⟩]⟩
        ⟨some (.str "i"), fun _ => none⟩ = ["--name/-n"] := by
  rw [policy_with_ids_missing_exactly
    ⟨[⟨"rg", ["--rg", "-g"], some (.bool true), some .null⟩,
      ⟨"nm", ["--name", "-n"], some (.bool true), none⟩]⟩
    ⟨some (.str "i"), fun _ => none⟩ rfl]
  rfl

/-- C3: with the ids slot absent, the required-argument policy records as
missing exactly the parameters that are marked `required` and are absent in
the namespace, regardless of `id_part`, in the order of the parameter list. -/
theorem policy_no_ids_missing_exactly (meta : CmdMeta) (ns : Namespace)
    (h : ns.ids = none) :
    missingArgs meta ns =
      (meta.parameters.filter (fun p => p.required.isSome && (ns.attrs p.name).isNone)).map
        (fun p => String.intercalate "/" p.options) := by
  rw [missingArgs, if_neg (by simp [h]), missingNoIds_eq_filter]

/-- Witness for C3 at a concrete command spec and namespace. -/
theorem policy_no_ids_missing_exactly_witness :
    missingArgs
        ⟨[⟨"rg", ["--rg", "-g"], some (.bool true), some .null⟩,
          ⟨"nm", ["--name", "-n"], some (.bool true), none⟩]⟩
        ⟨none, fun _ => none⟩ = ["--rg/-g", "--name/-n"] := by
  rw [policy_no_ids_missing_exactly
    ⟨[⟨"rg", ["--rg", "-g"], some (.bool true), some .null⟩,
      ⟨"nm", ["--name", "-n"], some (.bool true), none⟩]⟩
    ⟨none, fun _ => none⟩ rfl]
  rfl

/-- C4: the policy tail raises `ValidateFailureException` exactly when the
missing list is non-empty, and its message joins the option spellings of each
missing parameter with `/`, missing parameters in command-spec order. -/
theorem policy_raises_iff_missing (meta : CmdMeta) (ns : Namespace) :
    requiredPolicyCheck meta ns =
      (let missing :=
        (meta.parameters.filter
          (fun p =>
            if ns.ids.isSome then
              p.required.isSome && p.id_part.isNone && (ns.attrs p.name).isNone
            else
              p.required.isSome && (ns.attrs p.name).isNone)).map
          (fun p => String.intercalate "/" p.options)
      if missing.isEmpty then .ok none
      else .error (.validateFailure
        ("the following arguments are required: " ++
          String.intercalate ", " missing ++ " "))) := by
  have hm : missingArgs meta ns =
      (meta.parameters.filter
        (fun p =>
          if ns.ids.isSome then
            p.required.isSome && p.id_part.isNone && (ns.attrs p.name).isNone
          else
            p.required.isSome && (ns.attrs p.name).isNone)).map
        (fun p => String.intercalate "/" p.options) := by
    cases h : ns.ids with
    | none =>
      rw [policy_no_ids_missing_exactly meta ns h]
      simp [h]
    | some w =>
      rw [policy_with_ids_missing_exactly meta ns (by rw [h]; rfl)]
      simp [h]
  rw [requiredPolicyCheck, hm]
  cases hmiss :
      (meta.parameters.filter
        (fun p =>
          if ns.ids.isSome then
            p.required.isSome && p.id_part.isNone && (ns.attrs p.name).isNone
          else
            p.required.isSome && (ns.attrs p.name).isNone)).map
        (fun p => String.intercalate "/" p.options) with
  | nil => simp
  | cons a l => simp

/-- C9: presence of the `required` and `id_part` keys decides the policy, not
their values: a parameter whose metadata carries `required` with any value
(such as `false`) is treated as required in both branches, and one carrying
`id_part` with any value (such as `null`) is exempt when the ids slot is
present. -/
theorem policy_keys_by_presence (name : String) (opts : List String) (v w : JVal)
    (ns : Namespace) (h : ns.attrs name = none) :
    missingArgs ⟨[⟨name, opts, some v, none⟩]⟩ ns = [String.intercalate "/" opts] ∧
    (ns.ids.isSome = true →
      missingArgs ⟨[⟨name, opts, some v, some w⟩]⟩ ns = []) := by
  constructor
  · cases hid : ns.ids with
    | none => simp [missingArgs, hid, missingNoIds, h]
    | some x => simp [missingArgs, hid, missingWithIds, h]
  · intro hid
    rw [missingArgs, if_pos hid]
    simp [missingWithIds]

/-- Witness for C9: `"required": false` still counted as required, and
`"id_part": null` still exempt under `--ids`. -/
theorem policy_keys_by_presence_witness :
    missingArgs ⟨[⟨"nm", ["--name", "-n"], some (.bool false), none⟩]⟩
        ⟨some .null, fun _ => none⟩ = ["--name/-n"] ∧
    missingArgs ⟨[⟨"nm", ["--name", "-n"], some (.bool false), some .null⟩]⟩
        ⟨some .null, fun _ => none⟩ = [] :=
  ⟨(policy_keys_by_presence "nm" ["--name", "-n"] (.bool false) .null
      ⟨some .null, fun _ => none⟩ rfl).1,
   (policy_keys_by_presence "nm" ["--name", "-n"] (.bool false) .null
      ⟨some .null, fun _ => none⟩ rfl).2 rfl⟩

/-! ## The exception taxonomy (claim C10) -/

/-- C10: every exception kind of the taxonomy except `UnknownTypeException` —
including the non-error help condition — subclasses
`ValidateFailureException`, while `UnknownTypeException` does not. -/
theorem exception_taxonomy_under_validate_failure :
    isSubkindOf .parserFailureException .validateFailureException = true ∧
    isSubkindOf .parserHelpException .validateFailureException = true ∧
    isSubkindOf .emptyCommandException .validateFailureException = true ∧
    isSubkindOf .nonAzCommandException .validateFailureException = true ∧
    isSubkindOf .commandTreeCorruptedException .validateFailureException = true ∧
    isSubkindOf .unknownCommandException .validateFailureException = true ∧
    isSubkindOf .unknownTypeException .validateFailureException = false := by
  decide

/-! ## validate_command as a whole (claims C1 and C8) -/

/-- The policy tail never produces a namespace: its only success value is
`none`, because the Python method body ends without a `return` statement. -/
theorem requiredPolicyCheck_ok (meta : CmdMeta) (ns : Namespace)
    (res : Option Namespace) (h : requiredPolicyCheck meta ns = .ok res) :
    res = none := by
  rw [requiredPolicyCheck] at h
  split at h
  · cases h
  · cases h
    rfl

/-- C1 (the code bug): whenever every stage of `validate_command` succeeds,
the value returned to the caller is Python `None`, not the parsed namespace —
the method body has no `return` statement, although its docstring and the spec
promise the parsed namespace. -/
theorem validate_command_success_returns_none (parse_command : ParseCommandBehavior)
    (v : CommandMetaValidator) (command : String) (comments : Bool)
    (res : Option Namespace)
    (h : (v.validate_command parse_command command comments).1 = .ok res) :
    res = none := by
  unfold CommandMetaValidator.validate_command at h
  cases h1 : parse_command v.command_tree command comments with
  | error e => rw [h1] at h; cases h
  | ok cmd =>
    rw [h1] at h
    simp only [] at h
    cases h2 : v.load_command_meta cmd.signature cmd.module with
    | error e => rw [h2] at h; cases h
    | ok meta =>
      rw [h2] at h
      simp only [] at h
      cases h3 : v.buildParser meta cmd.parameters with
      | error e => rw [h3] at h; cases h
      | ok ns =>
        rw [h3] at h
        simp only [] at h
        exact requiredPolicyCheck_ok meta ns res h

/-- A validator instance whose metadata declares the command `group create`
with no parameters, used to exercise a fully successful validation. -/
def exampleValidatorGroup : CommandMetaValidator :=
  { metas := [("az_group_meta.json",
      ⟨"group", .mk [] [("group", .mk [("group create", ⟨[]⟩)] [])]⟩)],
    command_tree := [("group", .node [("create", .leaf "group")])],
    globalParser := fun _ _ => .ok ⟨none, fun _ => none⟩ }

/-- Witness for C1: a concrete fully successful validation returns `.ok none`. -/
theorem validate_command_success_returns_none_witness :
    (exampleValidatorGroup.validate_command
        (fun _ _ _ => .ok ⟨["group", "create"], "group", ["-n", "rg1"]⟩)
        "az group create -n rg1" true).1 = .ok none ∧
    (none : Option Namespace) = none :=
  ⟨rfl,
   validate_command_success_returns_none
     (fun _ _ _ => .ok ⟨["group", "create"], "group", ["-n", "rg1"]⟩)
     exampleValidatorGroup "az group create -n rg1" true none rfl⟩

/-- C8: a `validate_command` call leaves the validator state — the loaded
metadata mapping, the command tree and the global parser — unchanged, whether
it succeeds or raises: the method never assigns to `self`. -/
theorem validate_command_state_unchanged (parse_command : ParseCommandBehavior)
    (v : CommandMetaValidator) (command : String) (comments : Bool) :
    (v.validate_command parse_command command comments).2 = v ∧
    (v.validate_command parse_command command comments).2.metas = v.metas ∧
    (v.validate_command parse_command command comments).2.command_tree = v.command_tree ∧
    (v.validate_command parse_command command comments).2.globalParser = v.globalParser :=
  ⟨rfl, rfl, rfl, rfl⟩

/-! ## load_command_meta (claim C5) -/

/-- When the pure walk hits a missing sub-group key, the loop of
`load_command_meta` raises `KeyError`. -/
theorem groupWalk_none_descend (ks : List String) :
    ∀ g : GroupMeta, groupWalk g ks = none →
      ∃ k, descendSubGroups g ks = .error (.keyError k) := by
  induction ks with
  | nil => intro g h; cases h
  | cons k rest ih =>
    intro g h
    cases hg : dictGet g.sub_groups k with
    | none => exact ⟨k, by rw [descendSubGroups, hg]⟩
    | some g2 =>
      rw [groupWalk, hg] at h
      obtain ⟨k2, hk⟩ := ih g2 h
      exact ⟨k2, by rw [descendSubGroups, hg]; exact hk⟩

/-- When the pure walk succeeds, so does the loop of `load_command_meta`. -/
theorem groupWalk_some_descend (ks : List String) :
    ∀ g g2 : GroupMeta, groupWalk g ks = some g2 →
      descendSubGroups g ks = .ok g2 := by
  induction ks with
  | nil => intro g g2 h; rw [groupWalk] at h; cases h; rfl
  | cons k rest ih =>
    intro g g2 h
    cases hg : dictGet g.sub_groups k with
    | none => rw [groupWalk, hg] at h; cases h
    | some g3 =>
      rw [groupWalk, hg] at h
      rw [descendSubGroups, hg]
      exact ih g3 g2 h

/-- C5 (amended): whenever the metadata document of the module is absent, an
intermediate sub-group key is absent, or the final command key is absent,
`load_command_meta` fails — but with the builtin `KeyError` of the failing dict
read, not with `UnknownCommandException`. -/
theorem load_command_meta_missing_key_raises_key_error (v : CommandMetaValidator)
    (signature : List String) (module : String)
    (hsig : signature ≠ [])
    (habs : dictGet v.metas ("az_" ++ module ++ "_meta.json") = none ∨
      (∃ mm, dictGet v.metas ("az_" ++ module ++ "_meta.json") = some mm ∧
        groupWalk mm.body (subGroupKeys signature) = none) ∨
      (∃ mm g, dictGet v.metas ("az_" ++ module ++ "_meta.json") = some mm ∧
        groupWalk mm.body (subGroupKeys signature) = some g ∧
        dictGet g.commands (String.intercalate " " signature) = none)) :
    ∃ k, v.load_command_meta signature module = .error (.keyError k) := by
  rcases habs with h1 | ⟨mm, h1, h2⟩ | ⟨mm, g, h1, h2, h3⟩
  · exact ⟨"az_" ++ module ++ "_meta.json",
      by rw [CommandMetaValidator.load_command_meta, h1]⟩
  · obtain ⟨k, hk⟩ := groupWalk_none_descend (subGroupKeys signature) mm.body h2
    refine ⟨k, ?_⟩
    rw [CommandMetaValidator.load_command_meta, h1]
    simp only []
    rw [hk]
  · refine ⟨String.intercalate " " signature, ?_⟩
    rw [CommandMetaValidator.load_command_meta, h1]
    simp only []
    rw [groupWalk_some_descend (subGroupKeys signature) mm.body g h2]
    simp only []
    rw [h3]

/-- A validator instance holding no metadata documents at all. -/
def exampleValidatorNoMetas : CommandMetaValidator :=
  { metas := [],
    command_tree := [],
    globalParser := fun _ _ => .ok ⟨none, fun _ => none⟩ }

/-- Counterexample to C5 as stated: with the metadata document of module `vm`
absent, `load_command_meta` raises `KeyError`, whose class is not (a subclass
of) `UnknownCommandException`. -/
theorem load_command_meta_missing_key_not_unknown_command :
    exampleValidatorNoMetas.load_command_meta ["vm"] "vm" =
        .error (.keyError "az_vm_meta.json") ∧
    (PyErr.keyError "az_vm_meta.json").kind = .keyError ∧
    isSubkindOf (PyErr.keyError "az_vm_meta.json").kind .unknownCommandException = false :=
  ⟨rfl, rfl, by decide⟩

/-- Witness for the amended C5 at a concrete validator and signature. -/
theorem load_command_meta_missing_key_raises_key_error_witness :
    (["vm"] : List String) ≠ [] ∧
    ∃ k, exampleValidatorNoMetas.load_command_meta ["vm"] "vm" =
      .error (.keyError k) :=
  ⟨by decide,
   load_command_meta_missing_key_raises_key_error exampleValidatorNoMetas ["vm"] "vm"
     (by decide) (Or.inl rfl)⟩

/-! ## Dictionary lemmas -/

/-- The path `p` is an initial segment of the path `q`. -/
def pathExt (p q : List String) : Prop := ∃ r, p ++ r = q

theorem pathExt_self (p : List String) : pathExt p p := ⟨[], by simp⟩

theorem dictGet_append_none {α : Type} (d1 d2 : List (String × α)) (k : String)
    (h : dictGet d1 k = none) : dictGet (d1 ++ d2) k = dictGet d2 k := by
  induction d1 with
  | nil => rfl
  | cons e d ih =>
    obtain ⟨k2, v⟩ := e
    by_cases hk : k2 = k
    · rw [dictGet, if_pos hk] at h; cases h
    · rw [dictGet, if_neg hk] at h
      rw [List.cons_append, dictGet, if_neg hk]
      exact ih h

theorem dictGet_append_some {α : Type} (d1 d2 : List (String × α)) (k : String) (v : α)
    (h : dictGet d1 k = some v) : dictGet (d1 ++ d2) k = some v := by
  induction d1 with
  | nil => cases h
  | cons e d ih =>
    obtain ⟨k2, v2⟩ := e
    by_cases hk : k2 = k
    · rw [dictGet, if_pos hk] at h
      rw [List.cons_append, dictGet, if_pos hk]
      exact h
    · rw [dictGet, if_neg hk] at h
      rw [List.cons_append, dictGet, if_neg hk]
      exact ih h

theorem dictGet_dictSetIn_self {α : Type} (d : List (String × α)) (k : String) (v : α)
    (h : dictMem d k = true) : dictGet (dictSetIn d k v) k = some v := by
  induction d with
  | nil => cases h
  | cons e d ih =>
    obtain ⟨k2, v2⟩ := e
    by_cases hk : k2 = k
    · rw [dictSetIn, if_pos hk, dictGet, if_pos rfl]
    · rw [dictSetIn, if_neg hk, dictGet, if_neg hk]
      refine ih ?_
      rw [dictMem, dictGet, if_neg hk] at h
      exact h

theorem dictGet_dictSetIn_other {α : Type} (d : List (String × α)) (k : String) (v : α)
    (k2 : String) (h : k2 ≠ k) : dictGet (dictSetIn d k v) k2 = dictGet d k2 := by
  induction d with
  | nil => rfl
  | cons e d ih =>
    obtain ⟨k3, v3⟩ := e
    by_cases hk : k3 = k
    · rw [dictSetIn, if_pos hk, dictGet, if_neg (fun hkk => h hkk.symm), dictGet,
        if_neg (fun hk2 => h (hk ▸ hk2).symm)]
    · rw [dictSetIn, if_neg hk]
      by_cases hk2 : k3 = k2
      · rw [dictGet, if_pos hk2, dictGet, if_pos hk2]
      · rw [dictGet, if_neg hk2, dictGet, if_neg hk2]
        exact ih

theorem dictGet_dictSet_self {α : Type} (d : List (String × α)) (k : String) (v : α) :
    dictGet (dictSet d k v) k = some v := by
  rw [dictSet]
  by_cases h : dictMem d k
  · rw [if_pos h]; exact dictGet_dictSetIn_self d k v h
  · rw [if_neg h]
    have hn : dictGet d k = none := by
      rw [dictMem] at h
      exact Option.not_isSome_iff_eq_none.mp h
    rw [dictGet_append_none d _ k hn, dictGet, if_pos rfl]

theorem dictGet_dictSet_other {α : Type} (d : List (String × α)) (k : String) (v : α)
    (k2 : String) (h : k2 ≠ k) : dictGet (dictSet d k v) k2 = dictGet d k2 := by
  rw [dictSet]
  by_cases hm : dictMem d k
  · rw [if_pos hm]; exact dictGet_dictSetIn_other d k v k2 h
  · rw [if_neg hm]
    cases hg : dictGet d k2 with
    | some w => exact dictGet_append_some d _ k2 w hg
    | none =>
      rw [dictGet_append_none d _ k2 hg, dictGet, if_neg (fun hkk => h hkk.symm)]
      rfl

/-! ## followPath lemmas -/

theorem followPath_nil_path (nd : List (String × TreeVal)) : followPath nd [] = none := rfl

theorem followPath_nil_dict (q : List String) : followPath [] q = none := by
  cases q with
  | nil => rfl
  | cons t ts => rfl

theorem followPath_single (nd : List (String × TreeVal)) (t : String) :
    followPath nd [t] = dictGet nd t := by
  cases h : dictGet nd t <;> simp [followPath, h]

theorem followPath_cons_node (nd : List (String × TreeVal)) (t : String)
    (ch : List (String × TreeVal)) (q2 : List String)
    (h : dictGet nd t = some (.node ch)) (hq : q2 ≠ []) :
    followPath nd (t :: q2) = followPath ch q2 := by
  cases q2 with
  | nil => cases hq rfl
  | cons u us => simp [followPath, h]

theorem followPath_cons_leaf (nd : List (String × TreeVal)) (t : String) (m : String)
    (q2 : List String) (h : dictGet nd t = some (.leaf m)) (hq : q2 ≠ []) :
    followPath nd (t :: q2) = none := by
  cases q2 with
  | nil => cases hq rfl
  | cons u us => simp [followPath, h]

theorem followPath_cons_none (nd : List (String × TreeVal)) (t : String)
    (q2 : List String) (h : dictGet nd t = none) :
    followPath nd (t :: q2) = none := by
  cases q2 with
  | nil => simp [followPath, h]
  | cons u us => simp [followPath, h]

theorem followPath_head_eq (nd1 nd : List (String × TreeVal)) (u : String)
    (q2 : List String) (h : dictGet nd1 u = dictGet nd u) :
    followPath nd1 (u :: q2) = followPath nd (u :: q2) := by
  cases hg : dictGet nd u with
  | none =>
    rw [followPath_cons_none nd1 u q2 (h.trans hg), followPath_cons_none nd u q2 hg]
  | some v =>
    cases q2 with
    | nil => rw [followPath_single, followPath_single, h]
    | cons w ws =>
      cases v with
      | leaf m =>
        rw [followPath_cons_leaf nd1 u m _ (h.trans hg) (by simp),
          followPath_cons_leaf nd u m _ hg (by simp)]
      | node ch =>
        rw [followPath_cons_node nd1 u ch _ (h.trans hg) (by simp),
          followPath_cons_node nd u ch _ hg (by simp)]

/-! ## The commands loop characterised -/

/-- The depth-one tokens at which the commands loop installs leaves. -/
def cmdToks (commands : List (String × CmdMeta)) : List String :=
  commands.filterMap (fun e => lastTok e.1)

/-- The commands loop succeeds when every command name has a last token, and
the resulting node maps exactly those last tokens to fresh leaves of the
module, leaving every other key unchanged. -/
theorem attachCommandsLoop_char (commands : List (String × CmdMeta)) :
    ∀ (nd : List (String × TreeVal)) (module : String),
      (∀ e ∈ commands, (lastTok e.1).isSome = true) →
      ∃ nd2, attachCommandsLoop commands nd module = .ok nd2 ∧
        ∀ t, dictGet nd2 t =
          if t ∈ cmdToks commands then some (.leaf module) else dictGet nd t := by
  induction commands with
  | nil =>
    intro nd module _
    exact ⟨nd, rfl, fun t => by simp [cmdToks]⟩
  | cons e rest ih =>
    intro nd module h
    obtain ⟨name, c⟩ := e
    obtain ⟨t0, ht0⟩ := Option.isSome_iff_exists.mp (h (name, c) (by simp))
    obtain ⟨nd2, hok, hchar⟩ :=
      ih (dictSet nd t0 (.leaf module)) module (fun e he => h e (by simp [he]))
    refine ⟨nd2, by simp [attachCommandsLoop, ht0, hok], ?_⟩
    intro t
    rw [hchar t]
    have hct : cmdToks ((name, c) :: rest) = t0 :: cmdToks rest := by
      simp [cmdToks, ht0]
    rw [hct]
    by_cases h1 : t ∈ cmdToks rest
    · simp [h1]
    · by_cases h2 : t = t0
      · subst h2
        simp [h1, dictGet_dictSet_self]
      · simp [h1, h2, dictGet_dictSet_other nd t0 (.leaf module) t h2]

/-! ## Shape lemmas for the relative path sets -/

mutual
theorem relCmdPaths_ne_nil (g : GroupMeta) :
    ∀ c ∈ relCmdPaths g, c ≠ [] := by
  obtain ⟨cs, sgs⟩ := g
  intro c hc
  rw [relCmdPaths] at hc
  rcases List.mem_append.mp hc with h | h
  · obtain ⟨e, _, he⟩ := List.mem_filterMap.mp h
    cases hl : lastTok e.1 with
    | none => rw [hl] at he; cases he
    | some t => rw [hl] at he; cases he; simp
  · exact relCmdPathsList_ne_nil sgs c h

theorem relCmdPathsList_ne_nil (l : List (String × GroupMeta)) :
    ∀ c ∈ relCmdPathsList l, c ≠ [] := by
  match l with
  | [] => intro c hc; cases hc
  | (name, sg) :: rest =>
    intro c hc
    rw [relCmdPathsList] at hc
    rcases List.mem_append.mp hc with h | h
    · cases hl : lastTok name with
      | none => rw [hl] at h; cases h
      | some t =>
        rw [hl] at h
        obtain ⟨c2, _, he⟩ := List.mem_map.mp h
        cases he; simp
    · exact relCmdPathsList_ne_nil rest c h
end

mutual
theorem relNodePaths_ne_nil (g : GroupMeta) :
    ∀ q ∈ relNodePaths g, q ≠ [] := by
  obtain ⟨cs, sgs⟩ := g
  intro q hq
  rw [relNodePaths] at hq
  exact relNodePathsList_ne_nil sgs q hq

theorem relNodePathsList_ne_nil (l : List (String × GroupMeta)) :
    ∀ q ∈ relNodePathsList l, q ≠ [] := by
  match l with
  | [] => intro q hq; cases hq
  | (name, sg) :: rest =>
    intro q hq
    rw [relNodePathsList] at hq
    rcases List.mem_append.mp hq with h | h
    · cases hl : lastTok name with
      | none => rw [hl] at h; cases h
      | some t =>
        rw [hl] at h
        rcases List.mem_cons.mp h with h2 | h2
        · cases h2; simp
        · obtain ⟨q2, _, he⟩ := List.mem_map.mp h2
          cases he; simp
    · exact relNodePathsList_ne_nil rest q h
end

mutual
/-- A proper, non-empty initial segment of a relative command path is a
relative sub-group descent path. -/
theorem relCmd_proper_pre_is_node (g : GroupMeta) :
    ∀ c q, c ∈ relCmdPaths g → q ≠ [] → q ≠ c → pathExt q c → q ∈ relNodePaths g := by
  obtain ⟨cs, sgs⟩ := g
  intro c q hc hq hne hext
  rw [relCmdPaths] at hc
  rw [relNodePaths]
  rcases List.mem_append.mp hc with h | h
  · obtain ⟨e, _, he⟩ := List.mem_filterMap.mp h
    cases hl : lastTok e.1 with
    | none => rw [hl] at he; cases he
    | some t =>
      rw [hl] at he
      cases he
      obtain ⟨r, hr⟩ := hext
      cases q with
      | nil => exact absurd rfl hq
      | cons u us =>
        cases us with
        | nil =>
          cases hr
          exact absurd rfl hne
        | cons w ws => simp at hr
  · exact relCmdList_proper_pre_is_node sgs c q h hq hne hext

theorem relCmdList_proper_pre_is_node (l : List (String × GroupMeta)) :
    ∀ c q, c ∈ relCmdPathsList l → q ≠ [] → q ≠ c → pathExt q c →
      q ∈ relNodePathsList l := by
  match l with
  | [] => intro c q hc; cases hc
  | (name, sg) :: rest =>
    intro c q hc hq hne hext
    rw [relCmdPathsList] at hc
    rw [relNodePathsList]
    rcases List.mem_append.mp hc with h | h
    · cases hl : lastTok name with
      | none => rw [hl] at h; cases h
      | some t =>
        rw [hl] at h
        obtain ⟨c2, hc2, he⟩ := List.mem_map.mp h
        cases he
        obtain ⟨r, hr⟩ := hext
        cases q with
        | nil => exact absurd rfl hq
        | cons u us =>
          rw [List.cons_append] at hr
          injection hr with hu hus
          subst hu
          refine List.mem_append.mpr (Or.inl ?_)
          simp only []
          cases us with
          | nil => exact List.mem_cons_self _ _
          | cons w ws =>
            refine List.mem_cons.mpr (Or.inr ?_)
            refine List.mem_map.mpr ⟨w :: ws, ?_, rfl⟩
            refine relCmd_proper_pre_is_node sg c2 (w :: ws) hc2 (by simp) ?_ ⟨r, hus⟩
            intro hcontra
            exact hne (by rw [hcontra])
    · exact List.mem_append.mpr
        (Or.inr (relCmdList_proper_pre_is_node rest c q h hq hne hext))
end

/-! ## Consistency aligns declared names with relative paths -/

/-- A token list that is non-empty and has `dropLast` equal to `p` is `p` plus
one final token, which is also its last token. -/
theorem tokens_decomp (toks p : List String) (hne : toks.isEmpty = false)
    (hdl : toks.dropLast = p) :
    ∃ t, toks = p ++ [t] ∧ toks.getLast? = some t := by
  have h : toks ≠ [] := by
    cases toks with
    | nil => cases hne
    | cons a l => simp
  refine ⟨toks.getLast h, ?_, ?_⟩
  · conv_lhs => rw [← List.dropLast_append_getLast h]
    rw [hdl]
  · conv_lhs => rw [← List.dropLast_append_getLast h]
    simp [List.getLast?_append]

/-- Under `cmdNamesOkB`, the tokenised command names are the relative command
tokens prefixed by `p`. -/
theorem cmdNamesOk_align (p : List String) (cs : List (String × CmdMeta))
    (h : cmdNamesOkB p cs = true) :
    cs.map (fun e => splitTokens e.1) =
      (cs.filterMap (fun e => (lastTok e.1).map (fun t => [t]))).map
        (fun c => p ++ c) := by
  induction cs with
  | nil => rfl
  | cons e rest ih =>
    rw [cmdNamesOkB, List.all_cons, Bool.and_eq_true] at h
    obtain ⟨hhead, htail⟩ := h
    rw [Bool.and_eq_true, Bool.not_eq_true'] at hhead
    obtain ⟨hne, hdl⟩ := hhead
    obtain ⟨t, ht, hlast⟩ := tokens_decomp (splitTokens e.1) p hne (beq_iff_eq.mp hdl)
    have hlt : lastTok e.1 = some t := hlast
    have hfm : (e :: rest).filterMap (fun e => (lastTok e.1).map (fun t => [t])) =
        [t] :: rest.filterMap (fun e => (lastTok e.1).map (fun t => [t])) := by
      rw [List.filterMap_cons, hlt]
      rfl
    rw [List.map_cons, hfm, List.map_cons, ht, ih htail]

/-- Under `cmdNamesOkB`, every command name has a last token. -/
theorem cmdNamesOk_wellNamed (p : List String) (cs : List (String × CmdMeta))
    (h : cmdNamesOkB p cs = true) :
    cs.all (fun e => (lastTok e.1).isSome) = true := by
  rw [List.all_eq_true]
  intro e he
  rw [cmdNamesOkB, List.all_eq_true] at h
  have h2 := h e he
  rw [Bool.and_eq_true, Bool.not_eq_true'] at h2
  obtain ⟨hne, hdl⟩ := h2
  obtain ⟨t, _, hlast⟩ := tokens_decomp (splitTokens e.1) p hne (beq_iff_eq.mp hdl)
  rw [lastTok, hlast]
  rfl

mutual
/-- Under the data-model invariant at `p`, the tokenised declared command names
are exactly the relative command paths prefixed by `p`, in order. -/
theorem consistent_relCmd (g : GroupMeta) :
    ∀ p, consistentAtB p g = true →
      (declaredCmdNames g).map splitTokens = (relCmdPaths g).map (fun c => p ++ c) := by
  obtain ⟨cs, sgs⟩ := g
  intro p h
  rw [consistentAtB, Bool.and_eq_true] at h
  obtain ⟨hcs, hsgs⟩ := h
  rw [declaredCmdNames, relCmdPaths, List.map_append, List.map_append]
  congr 1
  · rw [← cmdNamesOk_align p cs hcs, List.map_map]
    rfl
  · exact consistent_relCmdList sgs p hsgs

theorem consistent_relCmdList (l : List (String × GroupMeta)) :
    ∀ p, consistentSubsB p l = true →
      (declaredCmdNamesList l).map splitTokens =
        (relCmdPathsList l).map (fun c => p ++ c) := by
  match l with
  | [] => intro p h; rfl
  | (name, sg) :: rest =>
    intro p h
    rw [consistentSubsB, Bool.and_eq_true, Bool.and_eq_true, Bool.and_eq_true] at h
    obtain ⟨⟨⟨hne, hdl⟩, hsg⟩, hrest⟩ := h
    rw [Bool.not_eq_true'] at hne
    obtain ⟨t, ht, _⟩ := tokens_decomp (splitTokens name) p hne (beq_iff_eq.mp hdl)
    have hlt : lastTok name = some t := by rw [lastTok, ht]; simp [List.getLast?_append]
    have hrc : relCmdPathsList ((name, sg) :: rest) =
        (relCmdPaths sg).map (fun c => t :: c) ++ relCmdPathsList rest := by
      rw [relCmdPathsList, hlt]
    rw [declaredCmdNamesList, hrc, List.map_append, List.map_append]
    congr 1
    · rw [List.map_map]
      have heq : ((fun c => p ++ c) ∘ (fun c => t :: c)) = fun c => (p ++ [t]) ++ c :=
        funext (fun c => by simp)
      rw [heq, ← ht, consistent_relCmd sg (splitTokens name) hsg]
    · exact consistent_relCmdList rest p hrest
end

mutual
/-- Under the data-model invariant at `p`, the tokenised declared sub-group
names are exactly the relative descent paths prefixed by `p`, in order. -/
theorem consistent_relNode (g : GroupMeta) :
    ∀ p, consistentAtB p g = true →
      (declaredSubGroupNames g).map splitTokens =
        (relNodePaths g).map (fun c => p ++ c) := by
  obtain ⟨cs, sgs⟩ := g
  intro p h
  rw [consistentAtB, Bool.and_eq_true] at h
  rw [declaredSubGroupNames, relNodePaths]
  exact consistent_relNodeList sgs p h.2

theorem consistent_relNodeList (l : List (String × GroupMeta)) :
    ∀ p, consistentSubsB p l = true →
      (declaredSubGroupNamesList l).map splitTokens =
        (relNodePathsList l).map (fun c => p ++ c) := by
  match l with
  | [] => intro p h; rfl
  | (name, sg) :: rest =>
    intro p h
    rw [consistentSubsB, Bool.and_eq_true, Bool.and_eq_true, Bool.and_eq_true] at h
    obtain ⟨⟨⟨hne, hdl⟩, hsg⟩, hrest⟩ := h
    rw [Bool.not_eq_true'] at hne
    obtain ⟨t, ht, _⟩ := tokens_decomp (splitTokens name) p hne (beq_iff_eq.mp hdl)
    have hlt : lastTok name = some t := by rw [lastTok, ht]; simp [List.getLast?_append]
    have hrn : relNodePathsList ((name, sg) :: rest) =
        [t] :: ((relNodePaths sg).map (fun c => t :: c) ++ relNodePathsList rest) := by
      rw [relNodePathsList, hlt]
      rfl
    have h1 : (declaredSubGroupNames sg).map splitTokens =
        ((relNodePaths sg).map (fun c => t :: c)).map (fun c => p ++ c) := by
      rw [List.map_map]
      have heq : ((fun c => p ++ c) ∘ (fun c => t :: c)) = fun c => (p ++ [t]) ++ c :=
        funext (fun c => by simp)
      rw [heq, ← ht, consistent_relNode sg (splitTokens name) hsg]
    have h2 : (declaredSubGroupNamesList rest).map splitTokens =
        (relNodePathsList rest).map (fun c => p ++ c) :=
      consistent_relNodeList rest p hrest
    rw [declaredSubGroupNamesList, hrn, List.map_cons, List.map_cons, List.map_append,
      List.map_append, h1, h2, ht]
end

mutual
/-- The data-model invariant implies every name has a last token. -/
theorem consistent_wellNamed (g : GroupMeta) :
    ∀ p, consistentAtB p g = true → wellNamedB g = true := by
  obtain ⟨cs, sgs⟩ := g
  intro p h
  rw [consistentAtB, Bool.and_eq_true] at h
  rw [wellNamedB, Bool.and_eq_true]
  exact ⟨cmdNamesOk_wellNamed p cs h.1, consistent_wellNamedList sgs p h.2⟩

theorem consistent_wellNamedList (l : List (String × GroupMeta)) :
    ∀ p, consistentSubsB p l = true → wellNamedListB l = true := by
  match l with
  | [] => intro p _; rfl
  | (name, sg) :: rest =>
    intro p h
    rw [consistentSubsB, Bool.and_eq_true, Bool.and_eq_true, Bool.and_eq_true] at h
    obtain ⟨⟨⟨hne, hdl⟩, hsg⟩, hrest⟩ := h
    rw [Bool.not_eq_true'] at hne
    obtain ⟨t, ht, _⟩ := tokens_decomp (splitTokens name) p hne (beq_iff_eq.mp hdl)
    rw [wellNamedListB, Bool.and_eq_true, Bool.and_eq_true]
    refine ⟨⟨?_, consistent_wellNamed sg (splitTokens name) hsg⟩,
      consistent_wellNamedList rest p hrest⟩
    rw [lastTok, ht]
    simp [List.getLast?_append]
end

/-! ## Auxiliary facts about the attach recursion -/

theorem relCmdPathsList_cons_eq (name : String) (sg : GroupMeta)
    (rest : List (String × GroupMeta)) (t : String) (hlt : lastTok name = some t) :
    relCmdPathsList ((name, sg) :: rest) =
      (relCmdPaths sg).map (fun c => t :: c) ++ relCmdPathsList rest := by
  rw [relCmdPathsList, hlt]

theorem relNodePathsList_cons_eq (name : String) (sg : GroupMeta)
    (rest : List (String × GroupMeta)) (t : String) (hlt : lastTok name = some t) :
    relNodePathsList ((name, sg) :: rest) =
      [t] :: ((relNodePaths sg).map (fun c => t :: c) ++ relNodePathsList rest) := by
  rw [relNodePathsList, hlt]
  rfl

/-- Every relative command path contributed through a sub-group has at least
two tokens. -/
theorem relCmdPathsList_shape (l : List (String × GroupMeta)) :
    ∀ c ∈ relCmdPathsList l, ∃ u c2, c = u :: c2 ∧ c2 ≠ [] := by
  induction l with
  | nil => intro c hc; cases hc
  | cons e rest ih =>
    obtain ⟨name, sg⟩ := e
    intro c hc
    rw [relCmdPathsList] at hc
    rcases List.mem_append.mp hc with h | h
    · cases hlt : lastTok name with
      | none => rw [hlt] at h; cases h
      | some t =>
        rw [hlt] at h
        obtain ⟨c2, hc2, he⟩ := List.mem_map.mp h
        exact ⟨t, c2, he.symm, relCmdPaths_ne_nil sg c2 hc2⟩
    · exact ih c h

/-- Attaching into a dict child runs the body of `_attach_sub_group_to_node`
against it and wraps the result back into a node value. -/
theorem attachIntoVal_node (g : GroupMeta) (ch : List (String × TreeVal))
    (module : String) :
    attachIntoVal g (.node ch) module =
      match attach_sub_group_to_node g ch module with
      | .error e => .error e
      | .ok n2 => .ok (.node n2) := by
  obtain ⟨cs, sgs⟩ := g
  cases h1 : attachCommandsLoop cs ch module with
  | error e => simp [attachIntoVal, attach_sub_group_to_node, h1]
  | ok n1 =>
    cases h2 : attachSubGroupsLoop sgs n1 module with
    | error e => simp [attachIntoVal, attach_sub_group_to_node, h1, h2]
    | ok n2 => simp [attachIntoVal, attach_sub_group_to_node, h1, h2]

/-! ## The attach loops: success, insertion, preservation -/

mutual
/-- Main lemma for `_attach_sub_group_to_node`: on a well-named group whose
descent paths meet no leaf in the target node and whose command paths are
disjoint from its descent paths, the attach succeeds; afterwards every relative
command path holds a leaf of the module, leaves not at or below one of those
paths are preserved, and every leaf of the result was already present or sits
at a relative command path. -/
theorem attachNode_main (g : GroupMeta) :
    ∀ (nd : List (String × TreeVal)) (module : String),
      wellNamedB g = true →
      (∀ q ∈ relNodePaths g, ¬ isLeafAt nd q) →
      (∀ c ∈ relCmdPaths g, c ∉ relNodePaths g) →
      ∃ nd2, attach_sub_group_to_node g nd module = .ok nd2 ∧
        (∀ c ∈ relCmdPaths g, followPath nd2 c = some (.leaf module)) ∧
        (∀ q m, followPath nd q = some (.leaf m) →
          (∀ c ∈ relCmdPaths g, ¬ pathExt c q) → followPath nd2 q = some (.leaf m)) ∧
        (∀ q m, followPath nd2 q = some (.leaf m) →
          followPath nd q = some (.leaf m) ∨ q ∈ relCmdPaths g) := by
  obtain ⟨cs, sgs⟩ := g
  intro nd module hwn hnl hdj
  rw [wellNamedB, Bool.and_eq_true] at hwn
  obtain ⟨hwn_cs, hwn_sgs⟩ := hwn
  obtain ⟨nd1, hok1, hchar⟩ :=
    attachCommandsLoop_char cs nd module (List.all_eq_true.mp hwn_cs)
  have hrc_eq : relCmdPaths (GroupMeta.mk cs sgs) =
      cs.filterMap (fun e => (lastTok e.1).map (fun t => [t])) ++ relCmdPathsList sgs := rfl
  have hrn_eq : relNodePaths (GroupMeta.mk cs sgs) = relNodePathsList sgs := rfl
  have hmem_tok : ∀ t, t ∈ cmdToks cs → [t] ∈ relCmdPaths (GroupMeta.mk cs sgs) := by
    intro t ht
    rw [hrc_eq]
    refine List.mem_append.mpr (Or.inl ?_)
    obtain ⟨e, he, hte⟩ := List.mem_filterMap.mp ht
    exact List.mem_filterMap.mpr ⟨e, he, by rw [hte]; rfl⟩
  have hnl1 : ∀ q ∈ relNodePathsList sgs, ¬ isLeafAt nd1 q := by
    intro q hq hleaf
    obtain ⟨m, hm⟩ := hleaf
    cases q with
    | nil => exact relNodePathsList_ne_nil sgs [] hq rfl
    | cons t q2 =>
      by_cases htc : t ∈ cmdToks cs
      · have hdg1 : dictGet nd1 t = some (.leaf module) := by rw [hchar t, if_pos htc]
        cases q2 with
        | nil => exact hdj [t] (hmem_tok t htc) (by rw [hrn_eq]; exact hq)
        | cons w ws =>
          rw [followPath_cons_leaf nd1 t module _ hdg1 (by simp)] at hm
          cases hm
      · have hdg1 : dictGet nd1 t = dictGet nd t := by rw [hchar t, if_neg htc]
        rw [followPath_head_eq nd1 nd t q2 hdg1] at hm
        exact hnl (t :: q2) (by rw [hrn_eq]; exact hq) ⟨m, hm⟩
  have hdj1 : ∀ c ∈ relCmdPathsList sgs, c ∉ relNodePathsList sgs := by
    intro c hc hn
    exact hdj c (by rw [hrc_eq]; exact List.mem_append.mpr (Or.inr hc))
      (by rw [hrn_eq]; exact hn)
  obtain ⟨nd2, hok2, h1r, h2r, h3r⟩ := attachSubsLoop_main sgs nd1 module hwn_sgs hnl1 hdj1
  refine ⟨nd2, ?_, ?_, ?_, ?_⟩
  · simp only [attach_sub_group_to_node, hok1]
    exact hok2
  · intro c hc
    rw [hrc_eq] at hc
    rcases List.mem_append.mp hc with h | h
    · obtain ⟨e, he, hte⟩ := List.mem_filterMap.mp h
      cases hlt : lastTok e.1 with
      | none => rw [hlt] at hte; cases hte
      | some t =>
        rw [hlt] at hte
        have hte2 : some [t] = some c := hte
        cases hte2
        have ht : t ∈ cmdToks cs := List.mem_filterMap.mpr ⟨e, he, hlt⟩
        have hfp1 : followPath nd1 [t] = some (.leaf module) := by
          rw [followPath_single, hchar t, if_pos ht]
        by_cases hmem : [t] ∈ relCmdPathsList sgs
        · obtain ⟨u, c2, hshape, hc2ne⟩ := relCmdPathsList_shape sgs [t] hmem
          injection hshape with h1 h2
          exact absurd h2.symm hc2ne
        · refine h2r [t] module hfp1 ?_
          intro c3 hc3 hext
          obtain ⟨r, hr⟩ := hext
          cases c3 with
          | nil => exact relCmdPathsList_ne_nil sgs [] hc3 rfl
          | cons u us =>
            rw [List.cons_append] at hr
            injection hr with h1 h2
            subst h1
            obtain ⟨hus, hrr⟩ := List.append_eq_nil.mp h2
            subst hus
            exact hmem hc3
    · exact h1r c h
  · intro q m hq hno
    cases q with
    | nil => rw [followPath_nil_path] at hq; cases hq
    | cons t q2 =>
      by_cases htc : t ∈ cmdToks cs
      · exact absurd ⟨q2, rfl⟩ (hno [t] (hmem_tok t htc))
      · have hdg1 : dictGet nd1 t = dictGet nd t := by rw [hchar t, if_neg htc]
        have hq1 : followPath nd1 (t :: q2) = some (.leaf m) := by
          rw [followPath_head_eq nd1 nd t q2 hdg1]; exact hq
        refine h2r (t :: q2) m hq1 ?_
        intro c3 hc3 hext
        exact hno c3 (by rw [hrc_eq]; exact List.mem_append.mpr (Or.inr hc3)) hext
  · intro q m hq
    rcases h3r q m hq with h | h
    · cases q with
      | nil => rw [followPath_nil_path] at h; cases h
      | cons t q2 =>
        by_cases htc : t ∈ cmdToks cs
        · have hdg1 : dictGet nd1 t = some (.leaf module) := by rw [hchar t, if_pos htc]
          cases q2 with
          | nil =>
            exact Or.inr (hmem_tok t htc)
          | cons w ws =>
            rw [followPath_cons_leaf nd1 t module _ hdg1 (by simp)] at h
            cases h
        · have hdg1 : dictGet nd1 t = dictGet nd t := by rw [hchar t, if_neg htc]
          rw [followPath_head_eq nd1 nd t q2 hdg1] at h
          exact Or.inl h
    · exact Or.inr (by rw [hrc_eq]; exact List.mem_append.mpr (Or.inr h))

/-- Main lemma for the sub-group loop, with the same three conclusions as
`attachNode_main`, relative to the loop's own contribution of paths. -/
theorem attachSubsLoop_main (l : List (String × GroupMeta)) :
    ∀ (nd : List (String × TreeVal)) (module : String),
      wellNamedListB l = true →
      (∀ q ∈ relNodePathsList l, ¬ isLeafAt nd q) →
      (∀ c ∈ relCmdPathsList l, c ∉ relNodePathsList l) →
      ∃ nd2, attachSubGroupsLoop l nd module = .ok nd2 ∧
        (∀ c ∈ relCmdPathsList l, followPath nd2 c = some (.leaf module)) ∧
        (∀ q m, followPath nd q = some (.leaf m) →
          (∀ c ∈ relCmdPathsList l, ¬ pathExt c q) → followPath nd2 q = some (.leaf m)) ∧
        (∀ q m, followPath nd2 q = some (.leaf m) →
          followPath nd q = some (.leaf m) ∨ q ∈ relCmdPathsList l) := by
  match l with
  | [] =>
    intro nd module _ _ _
    refine ⟨nd, rfl, ?_, fun q m hq _ => hq, fun q m hq => Or.inl hq⟩
    intro c hc
    rw [relCmdPathsList] at hc
    cases hc
  | (name, sg) :: rest =>
    intro nd module hwn hnl hdj
    rw [wellNamedListB, Bool.and_eq_true, Bool.and_eq_true] at hwn
    obtain ⟨⟨hlt_s, hwn_sg⟩, hwn_rest⟩ := hwn
    obtain ⟨t, hlt⟩ := Option.isSome_iff_exists.mp hlt_s
    have hrc := relCmdPathsList_cons_eq name sg rest t hlt
    have hrn := relNodePathsList_cons_eq name sg rest t hlt
    have hm_nl_head : [t] ∈ relNodePathsList ((name, sg) :: rest) := by
      rw [hrn]; exact List.mem_cons_self _ _
    have hm_nl_map : ∀ q2 ∈ relNodePaths sg,
        t :: q2 ∈ relNodePathsList ((name, sg) :: rest) := by
      intro q2 hq2
      rw [hrn]
      exact List.mem_cons.mpr (Or.inr (List.mem_append.mpr
        (Or.inl (List.mem_map.mpr ⟨q2, hq2, rfl⟩))))
    have hm_nl_rest : ∀ q ∈ relNodePathsList rest,
        q ∈ relNodePathsList ((name, sg) :: rest) := by
      intro q hq
      rw [hrn]
      exact List.mem_cons.mpr (Or.inr (List.mem_append.mpr (Or.inr hq)))
    have hm_rc_map : ∀ c2 ∈ relCmdPaths sg,
        t :: c2 ∈ relCmdPathsList ((name, sg) :: rest) := by
      intro c2 hc2
      rw [hrc]
      exact List.mem_append.mpr (Or.inl (List.mem_map.mpr ⟨c2, hc2, rfl⟩))
    have hm_rc_rest : ∀ c ∈ relCmdPathsList rest,
        c ∈ relCmdPathsList ((name, sg) :: rest) := by
      intro c hc
      rw [hrc]
      exact List.mem_append.mpr (Or.inr hc)
    obtain ⟨ch, hv0, hch_eq⟩ :
        ∃ ch, (match dictGet nd t with
               | some v => v
               | none => TreeVal.node []) = TreeVal.node ch ∧
          (∀ q2, q2 ≠ [] → followPath nd (t :: q2) = followPath ch q2) := by
      cases hdg : dictGet nd t with
      | none =>
        refine ⟨[], rfl, ?_⟩
        intro q2 _
        rw [followPath_cons_none nd t q2 hdg, followPath_nil_dict]
      | some v =>
        cases v with
        | node ch =>
          refine ⟨ch, rfl, ?_⟩
          intro q2 hq2
          exact followPath_cons_node nd t ch q2 hdg hq2
        | leaf m =>
          exact absurd ⟨m, by rw [followPath_single]; exact hdg⟩ (hnl [t] hm_nl_head)
    have hnd_t_not_leaf : ∀ m, dictGet nd t ≠ some (.leaf m) := by
      intro m hm
      exact hnl [t] hm_nl_head ⟨m, by rw [followPath_single]; exact hm⟩
    have hnl_ch : ∀ q2 ∈ relNodePaths sg, ¬ isLeafAt ch q2 := by
      intro q2 hq2 hleaf
      obtain ⟨m, hm⟩ := hleaf
      have hq2ne : q2 ≠ [] := relNodePaths_ne_nil sg q2 hq2
      exact hnl (t :: q2) (hm_nl_map q2 hq2) ⟨m, by rw [hch_eq q2 hq2ne]; exact hm⟩
    have hdj_ch : ∀ c2 ∈ relCmdPaths sg, c2 ∉ relNodePaths sg := by
      intro c2 hc2 hn2
      exact hdj (t :: c2) (hm_rc_map c2 hc2) (hm_nl_map c2 hn2)
    obtain ⟨ch2, hok_ch, h1c, h2c, h3c⟩ :=
      attachNode_main sg ch module hwn_sg hnl_ch hdj_ch
    have hIV : attachIntoVal sg (.node ch) module = .ok (.node ch2) := by
      rw [attachIntoVal_node, hok_ch]
    have hstep : attachSubGroupsLoop ((name, sg) :: rest) nd module =
        attachSubGroupsLoop rest (dictSet nd t (.node ch2)) module := by
      simp only [attachSubGroupsLoop, hlt, hv0, hIV]
    have hdg1_t : dictGet (dictSet nd t (.node ch2)) t = some (.node ch2) :=
      dictGet_dictSet_self nd t _
    have hdg1_o : ∀ u, u ≠ t → dictGet (dictSet nd t (.node ch2)) u = dictGet nd u :=
      fun u hu => dictGet_dictSet_other nd t _ u hu
    have hnl_rest : ∀ q ∈ relNodePathsList rest,
        ¬ isLeafAt (dictSet nd t (.node ch2)) q := by
      intro q hq hleaf
      obtain ⟨m, hm⟩ := hleaf
      cases q with
      | nil => exact relNodePathsList_ne_nil rest [] hq rfl
      | cons u q2 =>
        by_cases hut : u = t
        · subst hut
          cases q2 with
          | nil =>
            rw [followPath_single, hdg1_t] at hm
            cases hm
          | cons w ws =>
            rw [followPath_cons_node _ u ch2 _ hdg1_t (by simp)] at hm
            rcases h3c (w :: ws) m hm with h | h
            · exact hnl (u :: w :: ws) (hm_nl_rest _ hq)
                ⟨m, by rw [hch_eq (w :: ws) (by simp)]; exact h⟩
            · exact hdj (u :: w :: ws) (hm_rc_map _ h) (hm_nl_rest _ hq)
        · rw [followPath_head_eq _ nd u q2 (hdg1_o u hut)] at hm
          exact hnl (u :: q2) (hm_nl_rest _ hq) ⟨m, hm⟩
    have hdj_rest : ∀ c ∈ relCmdPathsList rest, c ∉ relNodePathsList rest := by
      intro c hc hn
      exact hdj c (hm_rc_rest c hc) (hm_nl_rest c hn)
    obtain ⟨nd2, hok_rest, h1r, h2r, h3r⟩ :=
      attachSubsLoop_main rest (dictSet nd t (.node ch2)) module hwn_rest hnl_rest hdj_rest
    refine ⟨nd2, by rw [hstep]; exact hok_rest, ?_, ?_, ?_⟩
    · intro c hc
      rw [hrc] at hc
      rcases List.mem_append.mp hc with h | h
      · obtain ⟨c2, hc2, he⟩ := List.mem_map.mp h
        cases he
        have hc2ne : c2 ≠ [] := relCmdPaths_ne_nil sg c2 hc2
        by_cases hmem : (t :: c2) ∈ relCmdPathsList rest
        · exact h1r (t :: c2) hmem
        · have hfp1 : followPath (dictSet nd t (.node ch2)) (t :: c2) =
              some (.leaf module) := by
            rw [followPath_cons_node _ t ch2 c2 hdg1_t hc2ne]
            exact h1c c2 hc2
          refine h2r (t :: c2) module hfp1 ?_
          intro c3 hc3 hext
          by_cases hceq : c3 = t :: c2
          · exact hmem (hceq ▸ hc3)
          · have hc3ne : c3 ≠ [] := relCmdPathsList_ne_nil rest c3 hc3
            have hnode : c3 ∈ relNodePathsList ((name, sg) :: rest) :=
              relCmdList_proper_pre_is_node _ (t :: c2) c3 (hm_rc_map c2 hc2)
                hc3ne hceq hext
            exact hdj c3 (hm_rc_rest c3 hc3) hnode
      · exact h1r c h
    · intro q m hq hno
      cases q with
      | nil => rw [followPath_nil_path] at hq; cases hq
      | cons u q2 =>
        by_cases hut : u = t
        · subst hut
          cases q2 with
          | nil =>
            rw [followPath_single] at hq
            exact absurd hq (hnd_t_not_leaf m)
          | cons w ws =>
            have hq_ch : followPath ch (w :: ws) = some (.leaf m) := by
              rw [← hch_eq (w :: ws) (by simp)]; exact hq
            have hq_ch2 : followPath ch2 (w :: ws) = some (.leaf m) := by
              refine h2c (w :: ws) m hq_ch ?_
              intro c2 hc2 hext
              obtain ⟨r, hr⟩ := hext
              exact hno (u :: c2) (hm_rc_map c2 hc2) ⟨r, by rw [List.cons_append, hr]⟩
            have hq1 : followPath (dictSet nd u (.node ch2)) (u :: w :: ws) =
                some (.leaf m) := by
              rw [followPath_cons_node _ u ch2 _ hdg1_t (by simp)]
              exact hq_ch2
            refine h2r _ m hq1 ?_
            intro c3 hc3 hext
            exact hno c3 (hm_rc_rest c3 hc3) hext
        · have hq1 : followPath (dictSet nd t (.node ch2)) (u :: q2) =
              some (.leaf m) := by
            rw [followPath_head_eq _ nd u q2 (hdg1_o u hut)]
            exact hq
          refine h2r _ m hq1 ?_
          intro c3 hc3 hext
          exact hno c3 (hm_rc_rest c3 hc3) hext
    · intro q m hq
      rcases h3r q m hq with h | h
      · cases q with
        | nil => rw [followPath_nil_path] at h; cases h
        | cons u q2 =>
          by_cases hut : u = t
          · subst hut
            cases q2 with
            | nil =>
              rw [followPath_single, hdg1_t] at h
              cases h
            | cons w ws =>
              rw [followPath_cons_node _ u ch2 _ hdg1_t (by simp)] at h
              rcases h3c (w :: ws) m h with h2 | h2
              · refine Or.inl ?_
                rw [hch_eq (w :: ws) (by simp)]
                exact h2
              · exact Or.inr (hm_rc_map _ h2)
          · refine Or.inl ?_
            rw [followPath_head_eq _ nd u q2 (hdg1_o u hut)] at h
            exact h
      · exact Or.inr (hm_rc_rest q h)
end

/-! ## Declared names versus relative paths at the module root -/

theorem relCmd_at_root (g : GroupMeta) (h : consistentAtB [] g = true) :
    (declaredCmdNames g).map splitTokens = relCmdPaths g := by
  have h2 := consistent_relCmd g [] h
  simpa using h2

theorem relNode_at_root (g : GroupMeta) (h : consistentAtB [] g = true) :
    (declaredSubGroupNames g).map splitTokens = relNodePaths g := by
  have h2 := consistent_relNode g [] h
  simpa using h2

theorem declares_iff_relCmd (m : ModuleMeta) (c : List String)
    (h : consistentAtB [] m.body = true) :
    declaresPathB m c = true ↔ c ∈ relCmdPaths m.body := by
  rw [declaresPathB, List.any_eq_true]
  constructor
  · rintro ⟨n, hn, hb⟩
    rw [← relCmd_at_root m.body h]
    exact List.mem_map.mpr ⟨n, hn, beq_iff_eq.mp hb⟩
  · intro hc
    rw [← relCmd_at_root m.body h] at hc
    obtain ⟨n, hn, he⟩ := List.mem_map.mp hc
    exact ⟨n, hn, beq_iff_eq.mpr he⟩

theorem mem_allCmdPaths (metas : List (String × ModuleMeta))
    (hc : ∀ e ∈ metas, consistentAtB [] e.2.body = true) :
    ∀ e ∈ metas, ∀ c ∈ relCmdPaths e.2.body, c ∈ allCmdPaths metas := by
  intro e he c hcm
  rw [allCmdPaths]
  refine List.mem_flatten.mpr
    ⟨(declaredCmdNames e.2.body).map splitTokens, List.mem_map.mpr ⟨e, he, rfl⟩, ?_⟩
  rw [relCmd_at_root e.2.body (hc e he)]
  exact hcm

theorem mem_allSubGroupPaths (metas : List (String × ModuleMeta))
    (hc : ∀ e ∈ metas, consistentAtB [] e.2.body = true) :
    ∀ e ∈ metas, ∀ q ∈ relNodePaths e.2.body, q ∈ allSubGroupPaths metas := by
  intro e he q hqm
  rw [allSubGroupPaths]
  refine List.mem_flatten.mpr
    ⟨(declaredSubGroupNames e.2.body).map splitTokens, List.mem_map.mpr ⟨e, he, rfl⟩, ?_⟩
  rw [relNode_at_root e.2.body (hc e he)]
  exact hqm

/-! ## lastOwner lemmas -/

theorem lastOwner_append (l1 l2 : List (String × ModuleMeta)) (c : List String) :
    lastOwner (l1 ++ l2) c =
      match lastOwner l2 c with
      | some m => some m
      | none => lastOwner l1 c := by
  induction l1 with
  | nil =>
    cases h : lastOwner l2 c <;> simp [lastOwner, h]
  | cons e rest ih =>
    rw [List.cons_append, lastOwner, ih]
    cases h2 : lastOwner l2 c <;> cases h1 : lastOwner rest c <;> simp [lastOwner, h1]

theorem lastOwner_none_of_all_false (l : List (String × ModuleMeta)) (c : List String)
    (h : ∀ e ∈ l, declaresPathB e.2 c = false) :
    lastOwner l c = none := by
  induction l with
  | nil => rfl
  | cons e rest ih =>
    rw [lastOwner, ih (fun e2 he2 => h e2 (by simp [he2])), h e (by simp)]
    rfl

theorem lastOwner_none_of_not_declared (l : List (String × ModuleMeta)) (c : List String)
    (hc : ∀ e ∈ l, consistentAtB [] e.2.body = true)
    (h : ¬ ∃ e ∈ l, c ∈ relCmdPaths e.2.body) :
    lastOwner l c = none := by
  refine lastOwner_none_of_all_false l c ?_
  intro e he
  cases hd : declaresPathB e.2 c with
  | false => rfl
  | true => exact absurd ⟨e, he, (declares_iff_relCmd e.2 c (hc e he)).mp hd⟩ h

/-- With all command paths globally distinct, the last owner of a path declared
by a module is that module. -/
theorem lastOwner_unique (metas : List (String × ModuleMeta))
    (hc : ∀ e ∈ metas, consistentAtB [] e.2.body = true)
    (hnd : (allCmdPaths metas).Nodup) :
    ∀ e ∈ metas, ∀ c ∈ relCmdPaths e.2.body, lastOwner metas c = some e.2.module_name := by
  induction metas with
  | nil => intro e he; cases he
  | cons f rest ih =>
    intro e he c hcm
    have hsplit : allCmdPaths (f :: rest) =
        (declaredCmdNames f.2.body).map splitTokens ++ allCmdPaths rest := by
      rw [allCmdPaths, List.map_cons, List.flatten_cons]
      rfl
    rw [hsplit] at hnd
    obtain ⟨hnd1, hnd2, hdisj⟩ := List.nodup_append.mp hnd
    rcases List.mem_cons.mp he with he1 | he2
    · subst he1
      have hchead : c ∈ (declaredCmdNames e.2.body).map splitTokens := by
        rw [relCmd_at_root e.2.body (hc e (by simp))]
        exact hcm
      have hnotrest : ¬ ∃ e2 ∈ rest, c ∈ relCmdPaths e2.2.body := by
        rintro ⟨e2, he2, hcm2⟩
        exact hdisj hchead
          (mem_allCmdPaths rest (fun e3 he3 => hc e3 (by simp [he3])) e2 he2 c hcm2)
      rw [lastOwner,
        lastOwner_none_of_not_declared rest c (fun e3 he3 => hc e3 (by simp [he3])) hnotrest]
      rw [if_pos ((declares_iff_relCmd e.2 c (hc e (by simp))).mpr hcm)]
    · have hrest := ih (fun e3 he3 => hc e3 (by simp [he3])) hnd2 e he2 c hcm
      rw [lastOwner, hrest]

/-! ## Building the full tree module by module -/

/-- Induction workhorse for `build_command_tree`: starting from any tree whose
leaves no remaining module descends through or overwrites from above, the build
succeeds; afterwards every path declared by a remaining module holds a leaf of
its last declarer, untouched leaves are preserved, and no other leaf appears. -/
theorem buildAux (rest : List (String × ModuleMeta)) :
    ∀ (tree : List (String × TreeVal)),
      (∀ e ∈ rest, consistentAtB [] e.2.body = true) →
      (∀ e1 ∈ rest, ∀ e2 ∈ rest, ∀ c ∈ relCmdPaths e1.2.body,
        c ∉ relNodePaths e2.2.body) →
      (∀ q m, followPath tree q = some (.leaf m) → ∀ e ∈ rest, q ∉ relNodePaths e.2.body) →
      (∀ q m, followPath tree q = some (.leaf m) →
        ∀ e ∈ rest, ∀ c ∈ relCmdPaths e.2.body, pathExt c q → c = q) →
      ∃ tree2, buildFrom rest tree = .ok tree2 ∧
        (∀ c, (∃ e ∈ rest, c ∈ relCmdPaths e.2.body) →
          ∃ mo, lastOwner rest c = some mo ∧ followPath tree2 c = some (.leaf mo)) ∧
        (∀ q m, followPath tree q = some (.leaf m) →
          (∀ e ∈ rest, ∀ c ∈ relCmdPaths e.2.body, ¬ pathExt c q) →
          followPath tree2 q = some (.leaf m)) ∧
        (∀ q m, followPath tree2 q = some (.leaf m) →
          followPath tree q = some (.leaf m) ∨ ∃ e ∈ rest, q ∈ relCmdPaths e.2.body) := by
  induction rest with
  | nil =>
    intro tree _ _ _ _
    refine ⟨tree, rfl, ?_, fun q m hq _ => hq, fun q m hq => Or.inl hq⟩
    rintro c ⟨e, he, _⟩
    cases he
  | cons e rest2 ih =>
    obtain ⟨fn, M⟩ := e
    intro tree hc hdj inva invb
    have hce : consistentAtB [] M.body = true := hc (fn, M) (by simp)
    obtain ⟨tree1, hok1, h1e, h2e, h3e⟩ :=
      attachNode_main M.body tree M.module_name
        (consistent_wellNamed M.body [] hce)
        (by
          intro q hq hleaf
          obtain ⟨m, hm⟩ := hleaf
          exact inva q m hm (fn, M) (by simp) hq)
        (by
          intro c hcm hn
          exact hdj (fn, M) (by simp) (fn, M) (by simp) c hcm hn)
    have hcr : ∀ e2 ∈ rest2, consistentAtB [] e2.2.body = true :=
      fun e2 he2 => hc e2 (by simp [he2])
    have hdjr : ∀ e1 ∈ rest2, ∀ e2 ∈ rest2, ∀ c ∈ relCmdPaths e1.2.body,
        c ∉ relNodePaths e2.2.body :=
      fun e1 h1 e2 h2 => hdj e1 (by simp [h1]) e2 (by simp [h2])
    have invar : ∀ q m, followPath tree1 q = some (.leaf m) →
        ∀ e2 ∈ rest2, q ∉ relNodePaths e2.2.body := by
      intro q m hm e2 he2 hq
      rcases h3e q m hm with h | h
      · exact inva q m h e2 (by simp [he2]) hq
      · exact hdj (fn, M) (by simp) e2 (by simp [he2]) q h hq
    have invbr : ∀ q m, followPath tree1 q = some (.leaf m) →
        ∀ e2 ∈ rest2, ∀ c ∈ relCmdPaths e2.2.body, pathExt c q → c = q := by
      intro q m hm e2 he2 c hcm hext
      rcases h3e q m hm with h | h
      · exact invb q m h e2 (by simp [he2]) c hcm hext
      · by_contra hne
        have hcne : c ≠ [] := relCmdPaths_ne_nil e2.2.body c hcm
        have hcn : c ∈ relNodePaths M.body :=
          relCmd_proper_pre_is_node M.body q c h hcne hne hext
        exact hdj e2 (by simp [he2]) (fn, M) (by simp) c hcm hcn
    obtain ⟨tree2, hok2, hA, hB, hC⟩ := ih tree1 hcr hdjr invar invbr
    have hstep : buildFrom ((fn, M) :: rest2) tree = buildFrom rest2 tree1 := by
      simp only [buildFrom, hok1]
    refine ⟨tree2, by rw [hstep]; exact hok2, ?_, ?_, ?_⟩
    · intro c hdecl
      by_cases hdr : ∃ e2 ∈ rest2, c ∈ relCmdPaths e2.2.body
      · obtain ⟨mo, hmo, hfp⟩ := hA c hdr
        refine ⟨mo, ?_, hfp⟩
        rw [lastOwner, hmo]
      · obtain ⟨e0, he0, hcm0⟩ := hdecl
        rcases List.mem_cons.mp he0 with he01 | he02
        · subst he01
          have hfp1 : followPath tree1 c = some (.leaf M.module_name) := h1e c hcm0
          have hpres : followPath tree2 c = some (.leaf M.module_name) := by
            refine hB c M.module_name hfp1 ?_
            intro e2 he2 c2 hcm2 hext
            by_cases hceq : c2 = c
            · exact hdr ⟨e2, he2, hceq ▸ hcm2⟩
            · have hc2ne : c2 ≠ [] := relCmdPaths_ne_nil e2.2.body c2 hcm2
              have hmem2 : c2 ∈ relNodePaths M.body :=
                relCmd_proper_pre_is_node M.body c c2 hcm0 hc2ne hceq hext
              exact hdj e2 (by simp [he2]) (fn, M) (by simp) c2 hcm2 hmem2
          refine ⟨M.module_name, ?_, hpres⟩
          rw [lastOwner, lastOwner_none_of_not_declared rest2 c hcr hdr]
          simp only []
          rw [if_pos ((declares_iff_relCmd M c hce).mpr hcm0)]
        · exact absurd ⟨e0, he02, hcm0⟩ hdr
    · intro q m hq hno
      have hq1 : followPath tree1 q = some (.leaf m) := by
        refine h2e q m hq ?_
        intro c hcm
        exact hno (fn, M) (by simp) c hcm
      refine hB q m hq1 ?_
      intro e2 he2 c hcm
      exact hno e2 (by simp [he2]) c hcm
    · intro q m hq
      rcases hC q m hq with h | h
      · rcases h3e q m h with h2 | h2
        · exact Or.inl h2
        · exact Or.inr ⟨(fn, M), by simp, h2⟩
      · obtain ⟨e2, he2, hcm⟩ := h
        exact Or.inr ⟨e2, by simp [he2], hcm⟩

/-! ## Command-tree construction (claims C6 and C7) -/

/-- Two modules declaring a command at the same leaf path `x`. -/
def cexConflictMetas : List (String × ModuleMeta) :=
  [("az_alpha_meta.json", ⟨"alpha", .mk [("x", ⟨[]⟩)] []⟩),
   ("az_beta_meta.json", ⟨"beta", .mk [("x", ⟨[]⟩)] []⟩)]

/-- Counterexample to C6 as stated: in a metadata set where each module's
command paths are consistent with its nesting, but two modules declare the
command path `x`, the built tree resolves `x` to the module processed last, so
the path declared by the first module does not reach a leaf owned by it. -/
theorem build_tree_conflict_counterexample :
    (∀ e ∈ cexConflictMetas, consistentAtB [] e.2.body = true) ∧
    "x" ∈ declaredCmdNames (GroupMeta.mk [("x", ⟨[]⟩)] []) ∧
    build_command_tree cexConflictMetas = .ok [("x", .leaf "beta")] ∧
    followPath [("x", .leaf "beta")] (splitTokens "x") = some (.leaf "beta") ∧
    "beta" ≠ "alpha" :=
  ⟨by decide, by decide, rfl, rfl, by decide⟩

/-- C6 (amended): for every metadata set in which each module's declared
command paths are consistent with its commands/sub_groups nesting, all declared
command paths are pairwise distinct, and no command path equals any sub-group
path, following each declared path's tokens through the built tree reaches a
leaf owned by exactly the declaring module. -/
theorem build_command_tree_resolves_declared (metas : List (String × ModuleMeta))
    (hc : ∀ e ∈ metas, consistentAtB [] e.2.body = true)
    (hnd : (allCmdPaths metas).Nodup)
    (hdisj : ∀ c ∈ allCmdPaths metas, ∀ s ∈ allSubGroupPaths metas, c ≠ s) :
    ∃ tree, build_command_tree metas = .ok tree ∧
      ∀ e ∈ metas, ∀ n ∈ declaredCmdNames e.2.body,
        followPath tree (splitTokens n) = some (.leaf e.2.module_name) := by
  have hdjrel : ∀ e1 ∈ metas, ∀ e2 ∈ metas, ∀ c ∈ relCmdPaths e1.2.body,
      c ∉ relNodePaths e2.2.body := by
    intro e1 h1 e2 h2 c hcm hn
    exact hdisj c (mem_allCmdPaths metas hc e1 h1 c hcm)
      c (mem_allSubGroupPaths metas hc e2 h2 c hn) rfl
  obtain ⟨tree2, hok, hA, _, _⟩ := buildAux metas [] hc hdjrel
    (by intro q m hm; rw [followPath_nil_dict] at hm; cases hm)
    (by intro q m hm; rw [followPath_nil_dict] at hm; cases hm)
  refine ⟨tree2, hok, ?_⟩
  intro e he n hn
  have hcm : splitTokens n ∈ relCmdPaths e.2.body := by
    rw [← relCmd_at_root e.2.body (hc e he)]
    exact List.mem_map.mpr ⟨n, hn, rfl⟩
  obtain ⟨mo, hmo, hfp⟩ := hA (splitTokens n) ⟨e, he, hcm⟩
  have huniq : lastOwner metas (splitTokens n) = some e.2.module_name :=
    lastOwner_unique metas hc hnd e he (splitTokens n) hcm
  rw [huniq] at hmo
  cases hmo
  exact hfp

/-- A metadata set with a nested sub-group and a second disjoint module. -/
def witMetasResolve : List (String × ModuleMeta) :=
  [("az_network_meta.json",
     ⟨"network", .mk [("network", ⟨[]⟩)] [("vnet", .mk [("vnet create", ⟨[]⟩)] [])]⟩),
   ("az_storage_meta.json", ⟨"storage", .mk [("storage", ⟨[]⟩)] []⟩)]

/-- Witness for the amended C6 at a concrete conflict-free metadata set. -/
theorem build_command_tree_resolves_declared_witness :
    (∀ e ∈ witMetasResolve, consistentAtB [] e.2.body = true) ∧
    (allCmdPaths witMetasResolve).Nodup ∧
    (∀ c ∈ allCmdPaths witMetasResolve, ∀ s ∈ allSubGroupPaths witMetasResolve, c ≠ s) ∧
    ∃ tree, build_command_tree witMetasResolve = .ok tree ∧
      ∀ e ∈ witMetasResolve, ∀ n ∈ declaredCmdNames e.2.body,
        followPath tree (splitTokens n) = some (.leaf e.2.module_name) :=
  ⟨by decide, by decide, by decide,
   build_command_tree_resolves_declared witMetasResolve (by decide) (by decide) (by decide)⟩

/-- C7: when two modules declare a command at the same leaf path, the build
still completes, and the leaf belongs to the module processed last (the tie is
resolved by overwriting), provided the metadata set is otherwise well-formed
(consistent nesting, and no command path equals a sub-group path). -/
theorem build_command_tree_last_writer_wins
    (l1 l2 : List (String × ModuleMeta)) (fnB : String) (B : ModuleMeta) (c : List String)
    (hc : ∀ e ∈ l1 ++ (fnB, B) :: l2, consistentAtB [] e.2.body = true)
    (hdisj : ∀ p ∈ allCmdPaths (l1 ++ (fnB, B) :: l2),
      ∀ s ∈ allSubGroupPaths (l1 ++ (fnB, B) :: l2), p ≠ s)
    (hB : declaresPathB B c = true)
    (hlater : ∀ e ∈ l2, declaresPathB e.2 c = false)
    (htwo : ∃ e ∈ l1, declaresPathB e.2 c = true ∧ e.2.module_name ≠ B.module_name) :
    ∃ tree, build_command_tree (l1 ++ (fnB, B) :: l2) = .ok tree ∧
      followPath tree c = some (.leaf B.module_name) := by
  have hcB : consistentAtB [] B.body = true := hc (fnB, B) (by simp)
  have hcm : c ∈ relCmdPaths B.body := (declares_iff_relCmd B c hcB).mp hB
  have hdjrel : ∀ e1 ∈ l1 ++ (fnB, B) :: l2, ∀ e2 ∈ l1 ++ (fnB, B) :: l2,
      ∀ p ∈ relCmdPaths e1.2.body, p ∉ relNodePaths e2.2.body := by
    intro e1 h1 e2 h2 p hpm hn
    exact hdisj p (mem_allCmdPaths _ hc e1 h1 p hpm)
      p (mem_allSubGroupPaths _ hc e2 h2 p hn) rfl
  obtain ⟨tree2, hok, hA, _, _⟩ := buildAux (l1 ++ (fnB, B) :: l2) [] hc hdjrel
    (by intro q m hm; rw [followPath_nil_dict] at hm; cases hm)
    (by intro q m hm; rw [followPath_nil_dict] at hm; cases hm)
  obtain ⟨mo, hmo, hfp⟩ := hA c ⟨(fnB, B), by simp, hcm⟩
  have howner : lastOwner (l1 ++ (fnB, B) :: l2) c = some B.module_name := by
    have h2 : lastOwner ((fnB, B) :: l2) c = some B.module_name := by
      rw [lastOwner, lastOwner_none_of_all_false l2 c hlater]
      simp only []
      rw [if_pos hB]
    rw [lastOwner_append, h2]
  rw [howner] at hmo
  cases hmo
  exact ⟨tree2, hok, hfp⟩

/-- First module of the last-writer-wins witness. -/
def witLastAlpha : ModuleMeta := ⟨"alpha", .mk [("x", ⟨[]⟩)] []⟩

/-- Second module of the last-writer-wins witness, declaring the same path. -/
def witLastBeta : ModuleMeta := ⟨"beta", .mk [("x", ⟨[]⟩)] []⟩

/-- Witness for C7 at a concrete two-module conflict. -/
theorem build_command_tree_last_writer_wins_witness :
    (∀ e ∈ [("az_alpha_meta.json", witLastAlpha)] ++ ("az_beta_meta.json", witLastBeta) :: [],
      consistentAtB [] e.2.body = true) ∧
    declaresPathB witLastBeta ["x"] = true ∧
    (∃ e ∈ [("az_alpha_meta.json", witLastAlpha)], declaresPathB e.2 ["x"] = true ∧
      e.2.module_name ≠ witLastBeta.module_name) ∧
    ∃ tree, build_command_tree
        ([("az_alpha_meta.json", witLastAlpha)] ++ ("az_beta_meta.json", witLastBeta) :: []) =
        .ok tree ∧
      followPath tree ["x"] = some (.leaf witLastBeta.module_name) :=
  ⟨by decide, by decide, by decide,
   build_command_tree_last_writer_wins [("az_alpha_meta.json", witLastAlpha)] []
     "az_beta_meta.json" witLastBeta ["x"] (by decide) (by decide) (by decide)
     (by decide) (by decide)⟩
